import Mathlib

/-!
# Verification of the `awsconfigfile` merge algorithm

A shallow embedding of `awscfg.go` (package `awsconfigfile`): the `Merge`
function that reconciles generated AWS SSO profiles into an INI-style
configuration document, together with proofs about pruning, conflict
resolution, duplicate reporting, sorting, and idempotence.

Modelling conventions:
* An `ini.File` is an ordered list of named sections; each section is an
  ordered list of key/value pairs (keys are unique per section in `ini.v1`;
  lookups take the first match).
* `text/template` + sprig template execution is abstracted as a pure
  function `AccountProfile → String` (the compiled section-name template):
  template parse/render errors are outside the embedded algorithm.
* `regexp2` matching is abstracted as an oracle `rm : String → String → Bool`
  (`rm pattern input = true` iff the pattern matches the input); `Merge`
  discards regex compile/match errors, so the oracle is total, as in the code.
* `ini.NewSection` can only fail on an empty section name; every name the
  code creates starts with `"profile "` or `"sso-session "`, so that error
  path cannot fire and section creation is modelled as total.
  `ini.GetSection` (used in the prefer-roles branch) can fail, so the merge
  returns an `Option`, `none` standing for that error return.
* `clio` logging is ignored except for the duplicate-name warning report,
  which is modelled as data (`warnings`) so that its content can be specified.
-/

namespace Awscfg

/-- An INI section: a name and an ordered list of key/value pairs. -/
structure IniSection where
  name : String
  fields : List (String × String)
  deriving DecidableEq

/-- An `ini.File`: an ordered list of sections (the always-present empty
`DEFAULT` section is irrelevant to the algorithm and not modelled). -/
abbrev IniFile := List IniSection

/-- `Section.HasKey` from `ini.v1`. -/
def hasKey (sec : IniSection) (k : String) : Bool :=
  (sec.fields.find? (fun kv => kv.fst == k)).isSome

/-- `Section.Key(k).String()` from `ini.v1`: empty string when absent. -/
def keyValue (sec : IniSection) (k : String) : String :=
  ((sec.fields.find? (fun kv => kv.fst == k)).map Prod.snd).getD ""

/-- `File.GetSection`. -/
def getSection (cfg : IniFile) (name : String) : Option IniSection :=
  cfg.find? (fun sec => sec.name == name)

/-- `File.DeleteSection`: removes the section with the given name. -/
def deleteSection (cfg : IniFile) (name : String) : IniFile :=
  cfg.filter (fun sec => sec.name != name)

/-- The `DeleteSection` + `NewSection` + `ReflectFrom` idiom used for every
write in `Merge`: replace any section of that name by a fresh one at the end. -/
def applyWrite (cfg : IniFile) (sec : IniSection) : IniFile :=
  deleteSection cfg sec.name ++ [sec]

/-- A sequence of section writes applied in order. -/
def applyWrites (cfg : IniFile) (ws : List IniSection) : IniFile :=
  ws.foldl applyWrite cfg

/-- The `SSOSession` struct. -/
structure SSOSession where
  SSOSessionName : String
  SSOStartURL : String
  SSORegistrationScopes : String
  SSORegion : String
  GeneratedFrom : String
  deriving DecidableEq

/-- The `AccountProfile` struct. -/
structure AccountProfile where
  AccountName : String
  SSOSessionName : String
  AccountID : String
  RoleName : String
  GeneratedFrom : String
  Region : String
  CommonFateURL : String
  SSOStartURL : String
  SSORegion : String
  deriving DecidableEq

/-- A value of the `SSOProfile` interface: one of the two concrete types the
type switch in `Merge` recognises, or any other implementation
(`unsupported`), which hits the switch's `default` branch. -/
inductive SSOProfile where
  | session (s : SSOSession)
  | account (a : AccountProfile)
  | unsupported
  deriving DecidableEq

/-- `normalizeAccountName`: `strings.ReplaceAll(accountName, " ", "-")`.
Since the pattern is a single character, replacing every occurrence of
`" "` by `"-"` is exactly a character map (embedded that way so that it
evaluates by kernel reduction). -/
def normalizeAccountName (accountName : String) : String :=
  String.mk (accountName.data.map (fun c => if c = ' ' then '-' else c))

/-- `(*SSOSession).ToIni` reflected to INI fields, in struct-tag order;
`common_fate_generated_from` carries `omitempty`. -/
def ssoSessionToIni (s : SSOSession) : List (String × String) :=
  [("sso_start_url", s.SSOStartURL),
   ("sso_registration_scopes", s.SSORegistrationScopes),
   ("sso_region", s.SSORegion)] ++
  (if s.GeneratedFrom = "" then [] else [("common_fate_generated_from", s.GeneratedFrom)])

/-- The `credential_process` invocation string built in `(*AccountProfile).ToIni`. -/
def credProcessCmd (a : AccountProfile) (profileName : String) : String :=
  let base := "granted credential-process --profile " ++ profileName
  if a.CommonFateURL = "" then base else base ++ " --url " ++ a.CommonFateURL

/-- The `credentialProcessProfile` struct reflected to INI fields, in
struct-tag order; `granted_sso_region` and `region` carry `omitempty`. -/
def credentialProcessProfileToIni (a : AccountProfile) (profileName : String) :
    List (String × String) :=
  [("granted_sso_start_url", a.SSOStartURL)] ++
  (if a.SSORegion = "" then [] else [("granted_sso_region", a.SSORegion)]) ++
  [("granted_sso_account_id", a.AccountID),
   ("granted_sso_role_name", a.RoleName),
   ("common_fate_generated_from", a.GeneratedFrom),
   ("credential_process", credProcessCmd a profileName)] ++
  (if a.Region = "" then [] else [("region", a.Region)])

/-- The `regularProfile` struct reflected to INI fields, in struct-tag
order; `region` carries `omitempty`. -/
def regularProfileToIni (a : AccountProfile) : List (String × String) :=
  [("sso_session", a.SSOSessionName),
   ("sso_account_id", a.AccountID),
   ("common_fate_generated_from", a.GeneratedFrom),
   ("sso_role_name", a.RoleName)] ++
  (if a.Region = "" then [] else [("region", a.Region)])

/-- `(*AccountProfile).ToIni`. -/
def accountProfileToIni (a : AccountProfile) (profileName : String)
    (noCredentialProcess : Bool) : List (String × String) :=
  if noCredentialProcess then regularProfileToIni a
  else credentialProcessProfileToIni a profileName

/-- `MergeOpts` (the `Verbose` flag only tunes logging and is not modelled;
`SectionNameTemplate` is the compiled template; the code substitutes the
default template for an empty template string before compiling). -/
structure MergeOpts where
  Config : IniFile
  Pfx : String
  Profiles : List SSOProfile
  SectionNameTemplate : AccountProfile → String
  NoCredentialProcess : Bool
  PruneStartURLs : List String
  SessionName : String
  SSOScopes : List String
  PreferRoles : List String
  DefaultRegion : String

/-- The default section-name template `{{ .AccountName }}/{{ .RoleName }}`. -/
def defaultSectionNameTemplate (a : AccountProfile) : String :=
  a.AccountName ++ "/" ++ a.RoleName

/-- The type switch at the top of `Merge`: split the profile list into
sessions and account profiles, in order; on the first unsupported variant
the switch's `default` branch makes `Merge` return `nil` immediately,
modelled here as `none`. -/
def partitionProfiles : List SSOProfile → Option (List SSOSession × List AccountProfile)
  | [] => some ([], [])
  | SSOProfile.session s :: rest =>
    (partitionProfiles rest).map (fun p => (s :: p.fst, p.snd))
  | SSOProfile.account a :: rest =>
    (partitionProfiles rest).map (fun p => (p.fst, a :: p.snd))
  | SSOProfile.unsupported :: _ => none

/-- The sort key `AccountName + "/" + RoleName` (computed from the fields as
they stand when the sort runs, i.e. before any normalization). -/
def combinedName (a : AccountProfile) : String :=
  a.AccountName ++ "/" ++ a.RoleName

/-- Lexicographic `≤` on character lists, written by structural recursion so
that it evaluates.  It agrees with the library order on strings (proved
below as `strLE_iff_le`), which in turn models Go's byte-wise `<` / `≤` on
the UTF-8 strings the program compares. -/
def charsLE : List Char → List Char → Bool
  | [], _ => true
  | _ :: _, [] => false
  | a :: as, b :: bs => if a < b then true else if b < a then false else charsLE as bs

/-- Go's `s1 <= s2` on strings (as used, negated, by the sort comparators). -/
def strLE (a b : String) : Bool := charsLE a.data b.data

/-- The sort order used by `sort.SliceStable`. -/
def profLE (a b : AccountProfile) : Prop :=
  strLE (combinedName a) (combinedName b) = true

instance : DecidableRel profLE := fun a b =>
  inferInstanceAs (Decidable (strLE (combinedName a) (combinedName b) = true))

/-- `sort.SliceStable` on the combined name: the unique stable sort, embedded
as insertion sort (which is stable for a `≤`-style comparator). -/
def sortProfiles (l : List AccountProfile) : List AccountProfile :=
  l.insertionSort profLE

/-- The start URL the pruning pass associates with a section:
`granted_sso_start_url` if present, else `sso_start_url` if present, else `""`. -/
def sectionStartURL (sec : IniSection) : String :=
  if hasKey sec "granted_sso_start_url" then keyValue sec "granted_sso_start_url"
  else if hasKey sec "sso_start_url" then keyValue sec "sso_start_url"
  else ""

/-- The inner `for _, pruneURL := range opts.PruneStartURLs` loop of the
pruning pass, for one snapshot section. -/
def pruneSectionPass (pruneURLs : List String) (sec : IniSection) (cfg : IniFile) : IniFile :=
  pruneURLs.foldl
    (fun c pruneURL =>
      if hasKey sec "common_fate_generated_from" && (sectionStartURL sec == pruneURL)
      then deleteSection c sec.name else c)
    cfg

/-- The outer pruning loop over the snapshot `opts.Config.Sections()`. -/
def pruneLoop (pruneURLs : List String) : List IniSection → IniFile → IniFile
  | [], cfg => cfg
  | sec :: rest, cfg => pruneLoop pruneURLs rest (pruneSectionPass pruneURLs sec cfg)

/-- The pruning pass of `Merge`. -/
def pruneConfig (pruneURLs : List String) (cfg : IniFile) : IniFile :=
  pruneLoop pruneURLs cfg cfg

/-- The net deletion condition of the pruning pass for a single section:
it carries the generated marker and its associated start URL is in the
prune set. -/
def shouldPruneB (pruneURLs : List String) (sec : IniSection) : Bool :=
  hasKey sec "common_fate_generated_from" && pruneURLs.contains (sectionStartURL sec)

/-- The explicit-session loop of `Merge`: normalize each session name, then
delete/recreate its `sso-session` section.  Also returns the list of writes
performed, in order. -/
def writeSessions (cfg : IniFile) : List SSOSession → IniFile × List IniSection
  | [] => (cfg, [])
  | s :: rest =>
    let s1 := { s with SSOSessionName := normalizeAccountName s.SSOSessionName }
    let sec : IniSection := ⟨"sso-session " ++ s1.SSOSessionName, ssoSessionToIni s1⟩
    let out := writeSessions (applyWrite cfg sec) rest
    (out.fst, sec :: out.snd)

/-- The session name synthesized for profiles without one: the caller's
`SessionName`, prefixed and normalized when a prefix is configured. -/
def implicitSessionName (opts : MergeOpts) : String :=
  if opts.Pfx ≠ "" then normalizeAccountName (opts.Pfx ++ opts.SessionName)
  else opts.SessionName

/-- The implicit-session loop (`NoCredentialProcess` mode): for each account
profile in sorted order with no `SSOSessionName`, synthesize an `SSOSession`
from its legacy fields and write it, at most once per session name
(`createdSessions`); the profile is updated in place to reference the
session.  Returns the updated config, the writes performed, and the updated
profile list. -/
def implicitLoop (opts : MergeOpts) :
    List AccountProfile → IniFile → List String →
    IniFile × List IniSection × List AccountProfile
  | [], cfg, _ => (cfg, [], [])
  | a :: rest, cfg, created =>
    if a.SSOSessionName ≠ "" then
      let out := implicitLoop opts rest cfg created
      (out.1, out.2.1, a :: out.2.2)
    else
      let sessionName := implicitSessionName opts
      if created.contains sessionName then
        let out := implicitLoop opts rest cfg created
        (out.1, out.2.1, a :: out.2.2)
      else
        let s : SSOSession :=
          { SSOSessionName := sessionName
            SSOStartURL := a.SSOStartURL
            SSORegistrationScopes := String.intercalate " " opts.SSOScopes
            SSORegion := a.SSORegion
            GeneratedFrom := a.GeneratedFrom }
        let sec : IniSection := ⟨"sso-session " ++ sessionName, ssoSessionToIni s⟩
        let a1 := { a with SSOSessionName := sessionName }
        let out := implicitLoop opts rest (applyWrite cfg sec) (sessionName :: created)
        (out.1, sec :: out.2.1, a1 :: out.2.2)

/-- The implicit-session pass; a no-op outside `NoCredentialProcess` mode. -/
def implicitPass (opts : MergeOpts) (cfg : IniFile) (profiles : List AccountProfile) :
    IniFile × List IniSection × List AccountProfile :=
  if opts.NoCredentialProcess then implicitLoop opts profiles cfg []
  else (cfg, [], profiles)

/-- The mutations applied to an account profile at the top of the write loop:
`AccountName` normalized, then `SSOSessionName` overwritten with the loop's
`ssoSessionName` variable (which is `opts.SessionName` in
`NoCredentialProcess` mode and `""` otherwise). -/
def mutatedProfile (ssoName : String) (a : AccountProfile) : AccountProfile :=
  { a with AccountName := normalizeAccountName a.AccountName, SSOSessionName := ssoName }

/-- The default-region fallback, applied after the template has rendered. -/
def regionDefaulted (opts : MergeOpts) (a : AccountProfile) : AccountProfile :=
  if a.Region = "" ∧ opts.DefaultRegion ≠ "" then { a with Region := opts.DefaultRegion }
  else a

/-- The rendered target profile name: prefix + template output (the template
sees the mutated profile). -/
def profileTargetName (opts : MergeOpts) (ssoName : String) (a : AccountProfile) : String :=
  opts.Pfx ++ opts.SectionNameTemplate (mutatedProfile ssoName a)

/-- The role occupying an existing section: `granted_sso_role_name` if that
key is present, else the value of `sso_role_name` (empty if absent). -/
def existingRoleName (sec : IniSection) : String :=
  if hasKey sec "granted_sso_role_name" then keyValue sec "granted_sso_role_name"
  else keyValue sec "sso_role_name"

/-- The `for _, preferRole := range opts.PreferRoles` decision loop:
`shouldOverwrite` starts `true`; the first pattern matching exactly one of
the two roles decides and breaks. -/
def shouldOverwriteLoop (rm : String → String → Bool) :
    List String → String → String → Bool
  | [], _, _ => true
  | p :: rest, thisRole, exRole =>
    if rm p thisRole && !(rm p exRole) then true
    else if !(rm p thisRole) && rm p exRole then false
    else shouldOverwriteLoop rm rest thisRole exRole

/-- State threaded through the account-profile write loop.  `writes` is the
list of section writes performed so far (instrumentation used to state frame
properties; the Go code does not track it). -/
structure LoopState where
  cfg : IniFile
  seen : List String
  roles : List (String × List String)
  writes : List IniSection
  deriving DecidableEq

/-- `profileNameToRoles[profileName] = append(...)` on the assoc-list model. -/
def rolesAdd (m : List (String × List String)) (k v : String) :
    List (String × List String) :=
  match m with
  | [] => [(k, [v])]
  | kv :: rest =>
    if kv.fst == k then (kv.fst, kv.snd ++ [v]) :: rest
    else kv :: rolesAdd rest k v

/-- Map lookup `profileNameToRoles[k]` (empty when absent). -/
def rolesGet (m : List (String × List String)) (k : String) : List String :=
  ((m.find? (fun kv => kv.fst == k)).map Prod.snd).getD []

/-- The `profileName` computed in an iteration of the write loop: prefix +
template output (the template sees the mutated profile). -/
def stepName (opts : MergeOpts) (ssoName : String) (a : AccountProfile) : String :=
  opts.Pfx ++ opts.SectionNameTemplate (mutatedProfile ssoName a)

/-- The fully mutated account profile of one write-loop iteration (name
normalization, session-name overwrite, default region). -/
def stepProfile (opts : MergeOpts) (ssoName : String) (a : AccountProfile) : AccountProfile :=
  regionDefaulted opts (mutatedProfile ssoName a)

/-- The section written for an account profile. -/
def stepSection (opts : MergeOpts) (ssoName : String) (a : AccountProfile) : IniSection :=
  ⟨"profile " ++ stepName opts ssoName a,
   accountProfileToIni (stepProfile opts ssoName a) (stepName opts ssoName a)
     opts.NoCredentialProcess⟩

/-- One iteration of the account-profile write loop of `Merge`. -/
def profileStep (rm : String → String → Bool) (opts : MergeOpts) (ssoName : String)
    (a : AccountProfile) (st : LoopState) : Option LoopState :=
  let profileName := stepName opts ssoName a
  let sectionName := "profile " ++ profileName
  if st.seen.contains profileName ∧ opts.PreferRoles ≠ [] then
    match getSection st.cfg sectionName with
    | none => none
    | some existingSection =>
      if shouldOverwriteLoop rm opts.PreferRoles (stepProfile opts ssoName a).RoleName
          (existingRoleName existingSection) then
        some ⟨applyWrite st.cfg (stepSection opts ssoName a), st.seen, st.roles,
          st.writes ++ [stepSection opts ssoName a]⟩
      else
        some st
  else
    some ⟨applyWrite st.cfg (stepSection opts ssoName a), st.seen ++ [profileName],
      rolesAdd st.roles profileName (stepProfile opts ssoName a).RoleName,
      st.writes ++ [stepSection opts ssoName a]⟩

/-- The account-profile write loop of `Merge`. -/
def profileLoop (rm : String → String → Bool) (opts : MergeOpts) (ssoName : String) :
    List AccountProfile → LoopState → Option LoopState
  | [], st => some st
  | a :: rest, st =>
    match profileStep rm opts ssoName a st with
    | none => none
    | some st1 => profileLoop rm opts ssoName rest st1

/-- The relation `strLE` as a decidable `Prop`, the comparator of
`slices.Sort`. -/
def strLERel (a b : String) : Prop := strLE a b = true

instance : DecidableRel strLERel := fun a b =>
  inferInstanceAs (Decidable (strLE a b = true))

/-- `slices.Sort` on strings. -/
def sortStrings (l : List String) : List String :=
  l.insertionSort strLERel

/-- The `for i := 1; ...` scan collecting each element equal to its
predecessor. -/
def adjacentDups : List String → List String
  | a :: b :: t => (if b = a then [b] else []) ++ adjacentDups (b :: t)
  | _ => []

/-- `slices.Compact`: collapse runs of adjacent equal elements, keeping the
first of each run. -/
def compactAdjAux (prev : String) : List String → List String
  | [] => []
  | b :: rest => if b = prev then compactAdjAux prev rest else b :: compactAdjAux b rest

/-- `slices.Compact`. -/
def compactAdj : List String → List String
  | [] => []
  | a :: rest => a :: compactAdjAux a rest

/-- The duplicate-name computation after the write loop: sort the seen list,
collect adjacent duplicates, sort and compact them. -/
def computeDupes (seen : List String) : List String :=
  compactAdj (sortStrings (adjacentDups (sortStrings seen)))

/-- The duplicate-name warning report: one entry per duplicated name, with
the role list recorded for it. -/
def mkWarnings (seen : List String) (roles : List (String × List String)) :
    List (String × List String) :=
  (computeDupes seen).map (fun d => (d, rolesGet roles d))

/-- The result of a successful `Merge` run: the final config plus the
loop's bookkeeping (`seenProfileNames`, `profileNameToRoles`), the list of
section writes performed, and the duplicate-name warning report. -/
structure MergeResult where
  Config : IniFile
  seenProfileNames : List String
  profileNameToRoles : List (String × List String)
  writes : List IniSection
  warnings : List (String × List String)
  deriving DecidableEq

/-- The loop variable `ssoSessionName` of `Merge`: `opts.SessionName` in
`NoCredentialProcess` mode, the empty string otherwise.  It is assigned to
every account profile at the top of the write loop. -/
def mergeSsoName (opts : MergeOpts) : String :=
  if opts.NoCredentialProcess then opts.SessionName else ""

/-- The config after the pruning pass of a merge run on document `cfg0`.
The starting document is an explicit parameter (`Merge` passes
`opts.Config`) so that a re-run on the produced document is expressible. -/
def mergeCfg1 (opts : MergeOpts) (cfg0 : IniFile) : IniFile :=
  pruneConfig opts.PruneStartURLs cfg0

/-- The explicit-session pass of `Merge` (config after it, writes performed). -/
def mergeSessionsOut (opts : MergeOpts) (cfg0 : IniFile)
    (parts : List SSOSession × List AccountProfile) : IniFile × List IniSection :=
  writeSessions (mergeCfg1 opts cfg0) parts.fst

/-- The implicit-session pass of `Merge` (config, writes, updated profiles). -/
def mergeImplicitOut (opts : MergeOpts) (cfg0 : IniFile)
    (parts : List SSOSession × List AccountProfile) :
    IniFile × List IniSection × List AccountProfile :=
  implicitPass opts (mergeSessionsOut opts cfg0 parts).fst (sortProfiles parts.snd)

/-- The account-profile write loop of `Merge`, from the post-session config. -/
def mergeLoopOut (rm : String → String → Bool) (opts : MergeOpts) (cfg0 : IniFile)
    (parts : List SSOSession × List AccountProfile) : Option LoopState :=
  profileLoop rm opts (mergeSsoName opts) (mergeImplicitOut opts cfg0 parts).2.2
    ⟨(mergeImplicitOut opts cfg0 parts).1, [], [], []⟩

/-- A merge run with options `opts` on the starting document `cfg0`:
type-switch partition (an unsupported variant returns `nil` at once, leaving
the config untouched), stable sort by combined name, pruning pass,
explicit-session writes, implicit-session pass, account-profile write loop,
duplicate report.  `none` models the `GetSection` error return in the
prefer-roles branch. -/
def MergeFrom (rm : String → String → Bool) (opts : MergeOpts) (cfg0 : IniFile) :
    Option MergeResult :=
  match partitionProfiles opts.Profiles with
  | none => some ⟨cfg0, [], [], [], []⟩
  | some parts =>
    match mergeLoopOut rm opts cfg0 parts with
    | none => none
    | some st =>
      some ⟨st.cfg, st.seen, st.roles,
        (mergeSessionsOut opts cfg0 parts).snd ++ (mergeImplicitOut opts cfg0 parts).2.1 ++
          st.writes,
        mkWarnings st.seen st.roles⟩

/-- `Merge` from `awscfg.go`: a merge run on `opts.Config`. -/
def Merge (rm : String → String → Bool) (opts : MergeOpts) : Option MergeResult :=
  MergeFrom rm opts opts.Config

/-! ## Concrete instances for witnesses and counterexamples -/

/-- Equality-test oracle standing in for `regexp2` matching: on the literal
patterns used below (full role names with no metacharacters), a pattern
matches exactly the role equal to it, as the real matcher would. -/
def eqMatcher : String → String → Bool := fun p r => r == p

/-- A baseline `MergeOpts`: empty document, no options set, default template. -/
def baseOpts : MergeOpts :=
  { Config := [], Pfx := "", Profiles := [], SectionNameTemplate := defaultSectionNameTemplate,
    NoCredentialProcess := false, PruneStartURLs := [], SessionName := "", SSOScopes := [],
    PreferRoles := [], DefaultRegion := "" }

/-- The account profile of the repository's own `"ok"` test case. -/
def devProfile : AccountProfile :=
  { AccountName := "prod", SSOSessionName := "", AccountID := "123456789012",
    RoleName := "DevRole", GeneratedFrom := "aws-sso", Region := "", CommonFateURL := "",
    SSOStartURL := "https://example.awsapps.com/start", SSORegion := "ap-southeast-2" }

def c1profile : AccountProfile := { devProfile with RoleName := "DevRoleTwo" }

def c1section : IniSection :=
  ⟨"profile prod/Dev",
   credentialProcessProfileToIni { devProfile with RoleName := "DevRoleOne" } "prod/Dev"⟩

def c1opts : MergeOpts :=
  { baseOpts with SectionNameTemplate := fun a => a.AccountName ++ "/Dev" }

def c1state : LoopState :=
  ⟨[c1section], ["prod/Dev"], [("prod/Dev", ["DevRoleOne"])], [c1section]⟩

def c2userSection : IniSection := ⟨"profile example", [("test", "1")]⟩

def c2profile : AccountProfile := { devProfile with AccountName := "example" }

def c2opts : MergeOpts :=
  { baseOpts with
    Config := [c2userSection]
    Profiles := [SSOProfile.account c2profile]
    SectionNameTemplate := fun a => a.AccountName }

def c2wKeepSection : IniSection := ⟨"profile keep", [("test", "1")]⟩

def c2wOpts : MergeOpts :=
  { baseOpts with
    Config := [c2wKeepSection]
    Profiles := [SSOProfile.account devProfile] }

def c3wPrunable : IniSection :=
  ⟨"profile stale",
   [("common_fate_generated_from", "aws-sso"),
    ("granted_sso_start_url", "https://deleteme.example.com")]⟩

def c3wOpts : MergeOpts :=
  { baseOpts with
    Config := [c2userSection, c3wPrunable]
    Profiles := [SSOProfile.account devProfile]
    PruneStartURLs := ["https://deleteme.example.com"] }

def c4opts : MergeOpts :=
  { baseOpts with
    Config := [c3wPrunable]
    Profiles := [SSOProfile.unsupported, SSOProfile.account devProfile]
    PruneStartURLs := ["https://deleteme.example.com"] }

def c4optsSupported : MergeOpts :=
  { c4opts with Profiles := [SSOProfile.account devProfile] }

def c5p1 : AccountProfile := { devProfile with RoleName := "DevRoleOne" }

def c5p2 : AccountProfile := { devProfile with RoleName := "DevRoleTwo" }

def c5opts : MergeOpts :=
  { baseOpts with
    Profiles := [SSOProfile.account c5p2, SSOProfile.account c5p1]
    SectionNameTemplate := fun a => a.AccountName ++ "/Dev"
    PreferRoles := ["DevRoleOne"] }

def c5wOpts : MergeOpts := { c5opts with PreferRoles := [] }

def c6session : SSOSession :=
  { SSOSessionName := "company", SSOStartURL := "https://example.awsapps.com/start",
    SSORegistrationScopes := "sso:account:access", SSORegion := "ap-southeast-2",
    GeneratedFrom := "aws-sso" }

def c6profile : AccountProfile :=
  { devProfile with SSOSessionName := "company", SSOStartURL := "", SSORegion := "" }

def c6opts : MergeOpts :=
  { baseOpts with
    Config := [c2userSection]
    Profiles := [SSOProfile.session c6session, SSOProfile.account c6profile]
    NoCredentialProcess := true }

def c7opts : MergeOpts :=
  { baseOpts with
    Profiles := [SSOProfile.account devProfile]
    SectionNameTemplate := fun a => a.AccountName ++ ". " }

def c8secA : IniSection :=
  ⟨"profile a",
   [("common_fate_generated_from", "x"), ("granted_sso_start_url", "https://u")]⟩

def c8secB : IniSection := ⟨"profile b", [("granted_sso_start_url", "https://u")]⟩

def c8secC : IniSection :=
  ⟨"profile c",
   [("common_fate_generated_from", "x"), ("granted_sso_start_url", "https://v")]⟩

def c8cfg : IniFile := [c8secA, c8secB, c8secC]

def c9p1 : AccountProfile := { devProfile with AccountName := "a b", RoleName := "r" }

def c9p2 : AccountProfile := { devProfile with AccountName := "a-a", RoleName := "r" }

/-- The sort key claimed by the specification: the combined key computed from
the already-normalized account name (this is the spec's wording, for
comparison against the code's `combinedName`). -/
def normalizedCombinedName (a : AccountProfile) : String :=
  normalizeAccountName a.AccountName ++ "/" ++ a.RoleName

def c10sec : IniSection :=
  ⟨"profile both",
   [("common_fate_generated_from", "x"), ("granted_sso_start_url", "https://g"),
    ("sso_start_url", "https://s")]⟩

/-- The section `Merge` generates for `devProfile` under a given rendered
name (used to state expected results literally). -/
def devSection : IniSection :=
  ⟨"profile prod/DevRole", credentialProcessProfileToIni devProfile "prod/DevRole"⟩

def c2wRes : MergeResult :=
  ⟨[c2wKeepSection, devSection], ["prod/DevRole"], [("prod/DevRole", ["DevRole"])],
   [devSection], []⟩

def c3wRes : MergeResult :=
  ⟨[c2userSection, devSection], ["prod/DevRole"], [("prod/DevRole", ["DevRole"])],
   [devSection], []⟩

def c5sectionOne : IniSection :=
  ⟨"profile prod/Dev", credentialProcessProfileToIni c5p1 "prod/Dev"⟩

def c5sectionTwo : IniSection :=
  ⟨"profile prod/Dev", credentialProcessProfileToIni c5p2 "prod/Dev"⟩

def c5wRes : MergeResult :=
  ⟨[c5sectionTwo], ["prod/Dev", "prod/Dev"], [("prod/Dev", ["DevRoleOne", "DevRoleTwo"])],
   [c5sectionOne, c5sectionTwo], [("prod/Dev", ["DevRoleOne", "DevRoleTwo"])]⟩

def c7section : IniSection :=
  ⟨"profile prod. ", credentialProcessProfileToIni devProfile "prod. "⟩

def c7wRes : MergeResult :=
  ⟨[c7section], ["prod. "], [("prod. ", ["DevRole"])], [c7section], []⟩

/-! ## The string order: `charsLE` agrees with the library order -/

theorem charsLE_iff :
    ∀ as bs : List Char, charsLE as bs = true ↔ ¬ List.Lex (· < ·) bs as := by
  intro as
  induction as with
  | nil =>
    intro bs
    simp only [charsLE, true_iff]
    exact List.Lex.not_nil_right _ _
  | cons a as ih =>
    intro bs
    cases bs with
    | nil =>
      simp only [charsLE]
      constructor
      · intro h
        exact absurd h (by simp)
      · intro h
        exact absurd (List.Lex.nil) h
    | cons b bs =>
      show (if a < b then true else if b < a then false else charsLE as bs) = true ↔ _
      rcases lt_trichotomy a b with hab | hab | hab
      · rw [if_pos hab]
        simp only [true_iff]
        intro hlex
        cases hlex with
        | rel h => exact absurd hab (asymm h)
        | cons h => exact absurd hab (lt_irrefl a)
      · subst hab
        rw [if_neg (lt_irrefl a), if_neg (lt_irrefl a)]
        rw [ih bs]
        constructor
        · intro h hlex
          cases hlex with
          | rel h2 => exact absurd h2 (lt_irrefl a)
          | cons h2 => exact h h2
        · intro h hlex
          exact h (List.Lex.cons hlex)
      · rw [if_neg (asymm hab), if_pos hab]
        constructor
        · intro h
          exact absurd h (by simp)
        · intro h
          exact absurd (List.Lex.rel hab) h

theorem strLE_iff_le (a b : String) : strLE a b = true ↔ a ≤ b := by
  rw [strLE, charsLE_iff a.data b.data, String.le_iff_toList_le]
  show ¬ List.Lex (· < ·) b.data a.data ↔ a.data ≤ b.data
  exact @not_lt (List Char) _ b.data a.data

instance : IsTotal String strLERel :=
  ⟨fun a b => by
    rcases le_total a b with h | h
    · exact Or.inl ((strLE_iff_le a b).mpr h)
    · exact Or.inr ((strLE_iff_le b a).mpr h)⟩

instance : IsTrans String strLERel :=
  ⟨fun a b c h1 h2 =>
    (strLE_iff_le a c).mpr
      (le_trans ((strLE_iff_le a b).mp h1) ((strLE_iff_le b c).mp h2))⟩

theorem profLE_iff (a b : AccountProfile) :
    profLE a b ↔ combinedName a ≤ combinedName b := strLE_iff_le _ _

instance : IsTotal AccountProfile profLE :=
  ⟨fun a b => by
    rcases le_total (combinedName a) (combinedName b) with h | h
    · exact Or.inl ((profLE_iff a b).mpr h)
    · exact Or.inr ((profLE_iff b a).mpr h)⟩

instance : IsTrans AccountProfile profLE :=
  ⟨fun a b c h1 h2 =>
    (profLE_iff a c).mpr (le_trans ((profLE_iff a b).mp h1) ((profLE_iff b c).mp h2))⟩

/-! ## Basic lemmas about the document operations -/

theorem applyWrites_append (cfg : IniFile) (ws1 ws2 : List IniSection) :
    applyWrites cfg (ws1 ++ ws2) = applyWrites (applyWrites cfg ws1) ws2 :=
  List.foldl_append _ _ _ _

theorem deleteSection_idem (cfg : IniFile) (n : String) :
    deleteSection (deleteSection cfg n) n = deleteSection cfg n := by
  simp [deleteSection, List.filter_filter]

theorem applyWrites_nil_write (w : IniSection) (ws : List IniSection) :
    applyWrites [] (w :: ws) = applyWrites [w] ws := by
  simp [applyWrites, applyWrite, deleteSection]

/-- Decomposition of a write sequence: the surviving old sections (those
whose names are never written) in order, followed by the written sections. -/
theorem applyWrites_eq_filter_append (ws : List IniSection) :
    ∀ cfg : IniFile,
      applyWrites cfg ws =
        cfg.filter (fun s => !((ws.map IniSection.name).contains s.name)) ++
          applyWrites [] ws := by
  induction ws with
  | nil => intro cfg; simp [applyWrites]
  | cons w ws ih =>
    intro cfg
    have h1 : applyWrites cfg (w :: ws) = applyWrites (applyWrite cfg w) ws := rfl
    rw [h1, ih, applyWrites_nil_write, ih [w]]
    simp only [applyWrite, deleteSection, List.filter_append, List.filter_filter,
      List.map_cons, List.contains_cons]
    rw [List.append_assoc]
    congr 1
    apply List.filter_congr
    intro s _
    simp only [bne]
    cases hsw : s.name == w.name <;>
      cases hc : (List.map IniSection.name ws).contains s.name <;> rfl

theorem mem_applyWrites (ws : List IniSection) :
    ∀ (cfg : IniFile) (s : IniSection), s ∈ applyWrites cfg ws →
      s ∈ cfg ∨ s.name ∈ ws.map IniSection.name := by
  induction ws with
  | nil => intro cfg s h; exact Or.inl h
  | cons w ws ih =>
    intro cfg s h
    have h1 : applyWrites cfg (w :: ws) = applyWrites (applyWrite cfg w) ws := rfl
    rw [h1] at h
    rcases ih _ s h with h2 | h2
    · simp only [applyWrite, List.mem_append] at h2
      rcases h2 with h3 | h3
      · exact Or.inl (List.mem_of_mem_filter h3)
      · simp only [List.mem_singleton] at h3
        subst h3
        exact Or.inr (by simp)
    · exact Or.inr (by simp [h2])

theorem mem_applyWrites_nil_name {ws : List IniSection} {s : IniSection}
    (h : s ∈ applyWrites [] ws) : s.name ∈ ws.map IniSection.name := by
  rcases mem_applyWrites ws [] s h with h1 | h1
  · simp at h1
  · exact h1

theorem getSection_applyWrite_self (cfg : IniFile) (sec : IniSection) :
    getSection (applyWrite cfg sec) sec.name = some sec := by
  simp only [getSection, applyWrite, List.find?_append]
  have h1 : (deleteSection cfg sec.name).find? (fun s => s.name == sec.name) = none := by
    apply List.find?_eq_none.mpr
    intro s hs
    simp only [deleteSection, List.mem_filter, bne_iff_ne, ne_eq, decide_eq_true_eq] at hs
    simp [hs.2]
  simp [h1]

theorem find?_filter_of_imp {α : Type} (p q : α → Bool)
    (h : ∀ a, p a = true → q a = true) :
    ∀ l : List α, (l.filter q).find? p = l.find? p := by
  intro l
  induction l with
  | nil => rfl
  | cons a l ih =>
    cases hq : q a
    · have hqn : ¬ (q a = true) := by simp [hq]
      have hp : ¬ (p a = true) := by
        intro hpa
        rw [h a hpa] at hq
        exact Bool.true_eq_false.mp hq
      rw [List.filter_cons_of_neg hqn, ih, List.find?_cons_of_neg l hp]
    · have hq2 : q a = true := hq
      rw [List.filter_cons_of_pos hq2]
      cases hp : p a
      · have hp2 : ¬ (p a = true) := by simp [hp]
        rw [List.find?_cons_of_neg _ hp2, List.find?_cons_of_neg l hp2, ih]
      · have hp2 : p a = true := hp
        rw [List.find?_cons_of_pos _ hp2, List.find?_cons_of_pos l hp2]

theorem getSection_applyWrite_ne (cfg : IniFile) (sec : IniSection) (n : String)
    (h : n ≠ sec.name) : getSection (applyWrite cfg sec) n = getSection cfg n := by
  simp only [getSection, applyWrite, List.find?_append]
  have h2 : List.find? (fun s => s.name == n) [sec] = none := by
    apply List.find?_eq_none.mpr
    intro s hs
    simp only [List.mem_singleton] at hs
    subst hs
    simp only [beq_iff_eq]
    exact Ne.symm h
  have h3 : (deleteSection cfg sec.name).find? (fun s => s.name == n) =
      cfg.find? (fun s => s.name == n) := by
    apply find?_filter_of_imp
    intro a ha
    have han : a.name = n := by simpa using ha
    simp only [bne_iff_ne, ne_eq, han]
    exact h
  rw [h3, h2]
  cases cfg.find? (fun s => s.name == n) <;> rfl

/-! ## The pruning pass as a filter -/

theorem pruneSectionPass_eq (pruneURLs : List String) (sec : IniSection) :
    ∀ cfg : IniFile,
      pruneSectionPass pruneURLs sec cfg =
        if shouldPruneB pruneURLs sec then deleteSection cfg sec.name else cfg := by
  induction pruneURLs with
  | nil => intro cfg; simp [pruneSectionPass, shouldPruneB]
  | cons pu rest ih =>
    intro cfg
    have hstep : pruneSectionPass (pu :: rest) sec cfg =
        pruneSectionPass rest sec
          (if hasKey sec "common_fate_generated_from" && (sectionStartURL sec == pu)
           then deleteSection cfg sec.name else cfg) := rfl
    rw [hstep, ih]
    simp only [shouldPruneB, List.contains_cons]
    rcases Bool.eq_false_or_eq_true (hasKey sec "common_fate_generated_from") with hk | hk <;>
      rcases Bool.eq_false_or_eq_true (sectionStartURL sec == pu) with hu | hu <;>
        rcases Bool.eq_false_or_eq_true (rest.contains (sectionStartURL sec)) with hrest | hrest <;>
          simp [hk, hu, hrest, deleteSection_idem]

theorem pruneLoop_eq (pruneURLs : List String) :
    ∀ (secs : List IniSection) (cfg : IniFile),
      pruneLoop pruneURLs secs cfg =
        cfg.filter
          (fun s => !(secs.any (fun sec => shouldPruneB pruneURLs sec && (s.name == sec.name)))) := by
  intro secs
  induction secs with
  | nil => intro cfg; simp [pruneLoop]
  | cons sec rest ih =>
    intro cfg
    have hstep : pruneLoop pruneURLs (sec :: rest) cfg =
        pruneLoop pruneURLs rest (pruneSectionPass pruneURLs sec cfg) := rfl
    rw [hstep, ih, pruneSectionPass_eq]
    rcases Bool.eq_false_or_eq_true (shouldPruneB pruneURLs sec) with hsp | hsp
    · have hif : (if shouldPruneB pruneURLs sec = true then deleteSection cfg sec.name else cfg)
          = deleteSection cfg sec.name := by simp [hsp]
      rw [hif, deleteSection, List.filter_filter]
      apply List.filter_congr
      intro s _
      simp only [List.any_cons, hsp, Bool.true_and, bne, Bool.not_or]
      rcases Bool.eq_false_or_eq_true (s.name == sec.name) with hn | hn <;>
        rcases Bool.eq_false_or_eq_true
          (rest.any (fun sec2 => shouldPruneB pruneURLs sec2 && (s.name == sec2.name)))
          with ha | ha <;>
        simp [hn, ha]
    · have hif : (if shouldPruneB pruneURLs sec = true then deleteSection cfg sec.name else cfg)
          = cfg := by simp [hsp]
      rw [hif]
      apply List.filter_congr
      intro s _
      simp [List.any_cons, hsp]

theorem mem_pruneConfig {pruneURLs : List String} {cfg : IniFile} {s : IniSection}
    (h : s ∈ pruneConfig pruneURLs cfg) :
    s ∈ cfg ∧ shouldPruneB pruneURLs s = false := by
  rw [pruneConfig, pruneLoop_eq] at h
  rcases List.mem_filter.mp h with ⟨hmem, hpred⟩
  refine ⟨hmem, ?_⟩
  by_contra hsp
  rw [Bool.not_eq_false] at hsp
  simp only [Bool.not_eq_true', List.any_eq_false] at hpred
  have := hpred s hmem
  simp [hsp] at this

/-- On a document with unique section names (an `ini.v1` invariant), the
pruning pass deletes exactly the sections satisfying `shouldPruneB`. -/
theorem pruneConfig_eq_filter (pruneURLs : List String) (cfg : IniFile)
    (h : (cfg.map IniSection.name).Nodup) :
    pruneConfig pruneURLs cfg = cfg.filter (fun s => !shouldPruneB pruneURLs s) := by
  rw [pruneConfig, pruneLoop_eq]
  apply List.filter_congr
  intro s hs
  congr 1
  cases hsp : shouldPruneB pruneURLs s
  · simp only [List.any_eq_false]
    intro sec hsec
    intro hcontra
    rcases (Bool.and_eq_true _ _).mp hcontra with ⟨h1, h2⟩
    have hname : s.name = sec.name := by simpa using h2
    have : s = sec := List.inj_on_of_nodup_map h hs hsec hname
    rw [← this] at h1
    rw [h1] at hsp
    exact Bool.true_eq_false.mp hsp
  · apply List.any_eq_true.mpr
    exact ⟨s, hs, by simp [hsp]⟩

theorem contains_iff_mem {l : List String} {a : String} : l.contains a = true ↔ a ∈ l :=
  List.elem_iff

/-! ## The session passes as write sequences -/

theorem writeSessions_snd (ss : List SSOSession) :
    ∀ cfg cfg' : IniFile, (writeSessions cfg ss).snd = (writeSessions cfg' ss).snd := by
  induction ss with
  | nil => intro cfg cfg'; rfl
  | cons s rest ih =>
    intro cfg cfg'
    simp only [writeSessions]
    exact congrArg _ (ih _ _)

theorem writeSessions_fst (ss : List SSOSession) :
    ∀ cfg : IniFile, (writeSessions cfg ss).fst = applyWrites cfg (writeSessions cfg ss).snd := by
  induction ss with
  | nil => intro cfg; rfl
  | cons s rest ih =>
    intro cfg
    simp only [writeSessions]
    rw [ih]
    rfl

theorem implicitLoop_const (opts : MergeOpts) (ps : List AccountProfile) :
    ∀ (cfg cfg' : IniFile) (created : List String),
      (implicitLoop opts ps cfg created).2.1 = (implicitLoop opts ps cfg' created).2.1 ∧
      (implicitLoop opts ps cfg created).2.2 = (implicitLoop opts ps cfg' created).2.2 := by
  induction ps with
  | nil => intro cfg cfg' created; exact ⟨rfl, rfl⟩
  | cons a rest ih =>
    intro cfg cfg' created
    simp only [implicitLoop]
    by_cases h1 : a.SSOSessionName ≠ ""
    · simp only [if_pos h1]
      exact ⟨(ih _ _ _).1, congrArg _ (ih _ _ _).2⟩
    · simp only [if_neg h1]
      by_cases h2 : created.contains (implicitSessionName opts) = true
      · simp only [if_pos h2]
        exact ⟨(ih _ _ _).1, congrArg _ (ih _ _ _).2⟩
      · simp only [if_neg h2]
        exact ⟨congrArg _ (ih _ _ _).1, congrArg _ (ih _ _ _).2⟩

theorem implicitLoop_fst (opts : MergeOpts) (ps : List AccountProfile) :
    ∀ (cfg : IniFile) (created : List String),
      (implicitLoop opts ps cfg created).1 =
        applyWrites cfg (implicitLoop opts ps cfg created).2.1 := by
  induction ps with
  | nil => intro cfg created; rfl
  | cons a rest ih =>
    intro cfg created
    simp only [implicitLoop]
    by_cases h1 : a.SSOSessionName ≠ ""
    · simp only [if_pos h1]
      exact ih _ _
    · simp only [if_neg h1]
      by_cases h2 : created.contains (implicitSessionName opts) = true
      · simp only [if_pos h2]
        exact ih _ _
      · simp only [if_neg h2]
        rw [ih]
        rfl

/-! ## The account-profile write loop: totality, accounting, bisimulation -/

theorem getSection_isSome_applyWrite (cfg : IniFile) (sec : IniSection) (n : String)
    (h : (getSection cfg n).isSome = true) :
    (getSection (applyWrite cfg sec) n).isSome = true := by
  by_cases hn : n = sec.name
  · rw [hn, getSection_applyWrite_self]; rfl
  · rw [getSection_applyWrite_ne _ _ _ hn]; exact h

/-- Characterization of `profileStep`, fresh-name branch (also the
collision-with-no-patterns branch): unconditional write, name and role
recorded. -/
theorem profileStep_record {rm : String → String → Bool} {opts : MergeOpts} {ssoName : String}
    {a : AccountProfile} {st : LoopState}
    (h : ¬(st.seen.contains (stepName opts ssoName a) = true ∧ opts.PreferRoles ≠ [])) :
    profileStep rm opts ssoName a st =
      some ⟨applyWrite st.cfg (stepSection opts ssoName a),
        st.seen ++ [stepName opts ssoName a],
        rolesAdd st.roles (stepName opts ssoName a) (stepProfile opts ssoName a).RoleName,
        st.writes ++ [stepSection opts ssoName a]⟩ := by
  simp only [profileStep]
  rw [if_neg h]

/-- Characterization of `profileStep`: collision with patterns configured but
the target section missing (`GetSection` error; provably unreachable). -/
theorem profileStep_err {rm : String → String → Bool} {opts : MergeOpts} {ssoName : String}
    {a : AccountProfile} {st : LoopState}
    (h : st.seen.contains (stepName opts ssoName a) = true ∧ opts.PreferRoles ≠ [])
    (hget : getSection st.cfg ("profile " ++ stepName opts ssoName a) = none) :
    profileStep rm opts ssoName a st = none := by
  simp only [profileStep]
  rw [if_pos h]
  split
  · rfl
  · next exSec heq =>
    rw [hget] at heq
    exact absurd heq (by simp)

/-- Characterization of `profileStep`: collision, patterns configured, and the
preference loop decides to overwrite — the section is rewritten but neither
the seen list nor the role map is extended. -/
theorem profileStep_overwrite {rm : String → String → Bool} {opts : MergeOpts} {ssoName : String}
    {a : AccountProfile} {st : LoopState} {exSec : IniSection}
    (h : st.seen.contains (stepName opts ssoName a) = true ∧ opts.PreferRoles ≠ [])
    (hget : getSection st.cfg ("profile " ++ stepName opts ssoName a) = some exSec)
    (hov : shouldOverwriteLoop rm opts.PreferRoles (stepProfile opts ssoName a).RoleName
      (existingRoleName exSec) = true) :
    profileStep rm opts ssoName a st =
      some ⟨applyWrite st.cfg (stepSection opts ssoName a), st.seen, st.roles,
        st.writes ++ [stepSection opts ssoName a]⟩ := by
  simp only [profileStep]
  rw [if_pos h]
  split
  · next heq =>
    rw [hget] at heq
    exact absurd heq (by simp)
  · next exSec2 heq =>
    rw [hget] at heq
    injection heq with heq2
    subst heq2
    rw [if_pos hov]

/-- Characterization of `profileStep`: collision, patterns configured, and the
preference loop decides to skip — no write, nothing recorded. -/
theorem profileStep_skip {rm : String → String → Bool} {opts : MergeOpts} {ssoName : String}
    {a : AccountProfile} {st : LoopState} {exSec : IniSection}
    (h : st.seen.contains (stepName opts ssoName a) = true ∧ opts.PreferRoles ≠ [])
    (hget : getSection st.cfg ("profile " ++ stepName opts ssoName a) = some exSec)
    (hov : shouldOverwriteLoop rm opts.PreferRoles (stepProfile opts ssoName a).RoleName
      (existingRoleName exSec) = false) :
    profileStep rm opts ssoName a st = some st := by
  simp only [profileStep]
  rw [if_pos h]
  split
  · next heq =>
    rw [hget] at heq
    exact absurd heq (by simp)
  · next exSec2 heq =>
    rw [hget] at heq
    injection heq with heq2
    subst heq2
    rw [if_neg (by simp [hov])]

theorem profileLoop_cons_some {rm : String → String → Bool} {opts : MergeOpts} {ssoName : String}
    {a : AccountProfile} {rest : List AccountProfile} {st st1 : LoopState}
    (h : profileStep rm opts ssoName a st = some st1) :
    profileLoop rm opts ssoName (a :: rest) st = profileLoop rm opts ssoName rest st1 := by
  simp only [profileLoop, h]

theorem profileLoop_cons_none {rm : String → String → Bool} {opts : MergeOpts} {ssoName : String}
    {a : AccountProfile} {rest : List AccountProfile} {st : LoopState}
    (h : profileStep rm opts ssoName a st = none) :
    profileLoop rm opts ssoName (a :: rest) st = none := by
  simp only [profileLoop, h]

theorem profileLoop_isSome (rm : String → String → Bool) (opts : MergeOpts) (ssoName : String) :
    ∀ (ps : List AccountProfile) (st : LoopState),
      (∀ n ∈ st.seen, (getSection st.cfg ("profile " ++ n)).isSome = true) →
      (profileLoop rm opts ssoName ps st).isSome = true := by
  intro ps
  induction ps with
  | nil => intro st _; rfl
  | cons a rest ih =>
    intro st hinv
    by_cases hc :
        st.seen.contains (stepName opts ssoName a) = true ∧ opts.PreferRoles ≠ []
    · have hmem : stepName opts ssoName a ∈ st.seen := contains_iff_mem.mp hc.1
      have hsome := hinv _ hmem
      cases hget : getSection st.cfg ("profile " ++ stepName opts ssoName a) with
      | none => rw [hget] at hsome; exact absurd hsome (by simp)
      | some exSec =>
        cases hov : shouldOverwriteLoop rm opts.PreferRoles
            (stepProfile opts ssoName a).RoleName (existingRoleName exSec) with
        | true =>
          rw [profileLoop_cons_some (profileStep_overwrite hc hget hov)]
          apply ih
          intro n hn
          exact getSection_isSome_applyWrite _ _ _ (hinv n hn)
        | false =>
          rw [profileLoop_cons_some (profileStep_skip hc hget hov)]
          exact ih st hinv
    · rw [profileLoop_cons_some (profileStep_record hc)]
      apply ih
      intro n hn
      rcases List.mem_append.mp hn with hn1 | hn1
      · exact getSection_isSome_applyWrite _ _ _ (hinv n hn1)
      · simp only [List.mem_singleton] at hn1
        subst hn1
        show (getSection (applyWrite st.cfg (stepSection opts ssoName a))
            ("profile " ++ stepName opts ssoName a)).isSome = true
        have hsn : "profile " ++ stepName opts ssoName a = (stepSection opts ssoName a).name := rfl
        rw [hsn, getSection_applyWrite_self]
        rfl

theorem getSection_applyWrite_congr {cfg cfg' : IniFile} (sec : IniSection) (n : String)
    (h : getSection cfg n = getSection cfg' n) :
    getSection (applyWrite cfg sec) n = getSection (applyWrite cfg' sec) n := by
  by_cases hn : n = sec.name
  · rw [hn, getSection_applyWrite_self, getSection_applyWrite_self]
  · rw [getSection_applyWrite_ne _ _ _ hn, getSection_applyWrite_ne _ _ _ hn, h]

/-- Bisimulation of the write loop from two starting configs that agree on
every section named in the seen list: the loop makes the same decisions and
performs the same writes, because the conflict resolver only ever consults
sections written earlier in the same run. -/
theorem profileLoop_bisim (rm : String → String → Bool) (opts : MergeOpts) (ssoName : String) :
    ∀ (ps : List AccountProfile) (st st' res : LoopState),
      st.seen = st'.seen → st.roles = st'.roles →
      (∀ n ∈ st.seen,
        getSection st.cfg ("profile " ++ n) = getSection st'.cfg ("profile " ++ n)) →
      profileLoop rm opts ssoName ps st = some res →
      ∃ (res' : LoopState) (ws : List IniSection),
        profileLoop rm opts ssoName ps st' = some res' ∧
        res'.seen = res.seen ∧ res'.roles = res.roles ∧
        res.writes = st.writes ++ ws ∧ res'.writes = st'.writes ++ ws ∧
        res.cfg = applyWrites st.cfg ws ∧ res'.cfg = applyWrites st'.cfg ws := by
  intro ps
  induction ps with
  | nil =>
    intro st st' res hseen hroles _ hrun
    simp only [profileLoop, Option.some.injEq] at hrun
    subst hrun
    exact ⟨st', [], rfl, hseen.symm, hroles.symm, (List.append_nil _).symm,
      (List.append_nil _).symm, rfl, rfl⟩
  | cons a rest ih =>
    intro st st' res hseen hroles hsec hrun
    by_cases hc : st.seen.contains (stepName opts ssoName a) = true ∧ opts.PreferRoles ≠ []
    · have hc' : st'.seen.contains (stepName opts ssoName a) = true ∧ opts.PreferRoles ≠ [] := by
        rw [← hseen]
        exact hc
      have hmem : stepName opts ssoName a ∈ st.seen := contains_iff_mem.mp hc.1
      have heq := hsec _ hmem
      cases hget : getSection st.cfg ("profile " ++ stepName opts ssoName a) with
      | none =>
        rw [profileLoop_cons_none (profileStep_err hc hget)] at hrun
        exact absurd hrun (by simp)
      | some exSec =>
        have hget' : getSection st'.cfg ("profile " ++ stepName opts ssoName a) = some exSec := by
          rw [← heq]
          exact hget
        cases hov : shouldOverwriteLoop rm opts.PreferRoles (stepProfile opts ssoName a).RoleName
            (existingRoleName exSec) with
        | true =>
          rw [profileLoop_cons_some (profileStep_overwrite hc hget hov)] at hrun
          obtain ⟨res', ws, hrun', h1, h2, h3, h4, h5, h6⟩ :=
            ih ⟨applyWrite st.cfg (stepSection opts ssoName a), st.seen, st.roles,
                st.writes ++ [stepSection opts ssoName a]⟩
              ⟨applyWrite st'.cfg (stepSection opts ssoName a), st'.seen, st'.roles,
                st'.writes ++ [stepSection opts ssoName a]⟩
              res hseen hroles
              (fun n hn => getSection_applyWrite_congr _ _ (hsec n hn)) hrun
          refine ⟨res', stepSection opts ssoName a :: ws, ?_, h1, h2, ?_, ?_, h5, h6⟩
          · rw [profileLoop_cons_some (profileStep_overwrite hc' hget' hov)]
            exact hrun'
          · rw [h3]
            simp
          · rw [h4]
            simp
        | false =>
          rw [profileLoop_cons_some (profileStep_skip hc hget hov)] at hrun
          obtain ⟨res', ws, hrun', h1, h2, h3, h4, h5, h6⟩ :=
            ih st st' res hseen hroles hsec hrun
          refine ⟨res', ws, ?_, h1, h2, h3, h4, h5, h6⟩
          rw [profileLoop_cons_some (profileStep_skip hc' hget' hov)]
          exact hrun'
    · have hc' : ¬(st'.seen.contains (stepName opts ssoName a) = true ∧ opts.PreferRoles ≠ []) := by
        rw [← hseen]
        exact hc
      rw [profileLoop_cons_some (profileStep_record hc)] at hrun
      obtain ⟨res', ws, hrun', h1, h2, h3, h4, h5, h6⟩ :=
        ih ⟨applyWrite st.cfg (stepSection opts ssoName a),
            st.seen ++ [stepName opts ssoName a],
            rolesAdd st.roles (stepName opts ssoName a) (stepProfile opts ssoName a).RoleName,
            st.writes ++ [stepSection opts ssoName a]⟩
          ⟨applyWrite st'.cfg (stepSection opts ssoName a),
            st'.seen ++ [stepName opts ssoName a],
            rolesAdd st'.roles (stepName opts ssoName a) (stepProfile opts ssoName a).RoleName,
            st'.writes ++ [stepSection opts ssoName a]⟩
          res (by rw [hseen]) (by rw [hroles])
          (by
            intro n hn
            rcases List.mem_append.mp hn with hn1 | hn1
            · exact getSection_applyWrite_congr _ _ (hsec n hn1)
            · simp only [List.mem_singleton] at hn1
              subst hn1
              show getSection (applyWrite st.cfg (stepSection opts ssoName a))
                  ("profile " ++ stepName opts ssoName a) =
                getSection (applyWrite st'.cfg (stepSection opts ssoName a))
                  ("profile " ++ stepName opts ssoName a)
              have hsn : "profile " ++ stepName opts ssoName a =
                  (stepSection opts ssoName a).name := rfl
              rw [hsn, getSection_applyWrite_self, getSection_applyWrite_self])
          hrun
      refine ⟨res', stepSection opts ssoName a :: ws, ?_, h1, h2, ?_, ?_, h5, h6⟩
      · rw [profileLoop_cons_some (profileStep_record hc')]
        exact hrun'
      · rw [h3]
        simp
      · rw [h4]
        simp

/-- Writes accounting for the loop: the final config is the starting config
with the performed writes applied in order. -/
theorem profileLoop_writes (rm : String → String → Bool) (opts : MergeOpts) (ssoName : String)
    (ps : List AccountProfile) (st res : LoopState)
    (h : profileLoop rm opts ssoName ps st = some res) :
    ∃ ws, res.writes = st.writes ++ ws ∧ res.cfg = applyWrites st.cfg ws := by
  obtain ⟨res', ws, _, _, _, h3, _, h5, _⟩ :=
    profileLoop_bisim rm opts ssoName ps st st res rfl rfl (fun n _ => rfl) h
  exact ⟨ws, h3, h5⟩

/-! ## Merge-level structure lemmas -/

theorem implicitPass_fst (opts : MergeOpts) (cfg : IniFile) (profiles : List AccountProfile) :
    (implicitPass opts cfg profiles).1 = applyWrites cfg (implicitPass opts cfg profiles).2.1 := by
  by_cases h : opts.NoCredentialProcess = true
  · simp only [implicitPass, if_pos h]
    exact implicitLoop_fst opts profiles cfg []
  · simp only [implicitPass, if_neg h]
    rfl

theorem implicitPass_const (opts : MergeOpts) (cfg cfg' : IniFile)
    (profiles : List AccountProfile) :
    (implicitPass opts cfg profiles).2.1 = (implicitPass opts cfg' profiles).2.1 ∧
    (implicitPass opts cfg profiles).2.2 = (implicitPass opts cfg' profiles).2.2 := by
  by_cases h : opts.NoCredentialProcess = true
  · simp only [implicitPass, if_pos h]
    exact implicitLoop_const opts profiles cfg cfg' []
  · simp [implicitPass, h]

theorem MergeFrom_none_partition (rm : String → String → Bool) (opts : MergeOpts)
    (cfg0 : IniFile) (h : partitionProfiles opts.Profiles = none) :
    MergeFrom rm opts cfg0 = some ⟨cfg0, [], [], [], []⟩ := by
  simp only [MergeFrom, h]

theorem MergeFrom_some_partition (rm : String → String → Bool) (opts : MergeOpts)
    (cfg0 : IniFile) (parts : List SSOSession × List AccountProfile) (st : LoopState)
    (h : partitionProfiles opts.Profiles = some parts)
    (hl : mergeLoopOut rm opts cfg0 parts = some st) :
    MergeFrom rm opts cfg0 = some ⟨st.cfg, st.seen, st.roles,
      (mergeSessionsOut opts cfg0 parts).snd ++ (mergeImplicitOut opts cfg0 parts).2.1 ++
        st.writes,
      mkWarnings st.seen st.roles⟩ := by
  simp only [MergeFrom, h, hl]

theorem mergeLoopOut_isSome (rm : String → String → Bool) (opts : MergeOpts) (cfg0 : IniFile)
    (parts : List SSOSession × List AccountProfile) :
    (mergeLoopOut rm opts cfg0 parts).isSome = true :=
  profileLoop_isSome rm opts (mergeSsoName opts) _ _
    (fun n hn => absurd hn (List.not_mem_nil n))

/-- A merge run never fails: the only error path in the model is the
`GetSection` lookup in the prefer-roles branch, and a seen profile name
always has its section present. -/
theorem MergeFrom_isSome (rm : String → String → Bool) (opts : MergeOpts) (cfg0 : IniFile) :
    (MergeFrom rm opts cfg0).isSome = true := by
  cases hp : partitionProfiles opts.Profiles with
  | none => rw [MergeFrom_none_partition rm opts cfg0 hp]; rfl
  | some parts =>
    cases hl : mergeLoopOut rm opts cfg0 parts with
    | none =>
      have h2 := mergeLoopOut_isSome rm opts cfg0 parts
      rw [hl] at h2
      exact absurd h2 (by simp)
    | some st => rw [MergeFrom_some_partition rm opts cfg0 parts st hp hl]; rfl

/-- Inversion for a successful run when the partition failed (an unsupported
profile variant was present). -/
theorem MergeFrom_inv_none (rm : String → String → Bool) (opts : MergeOpts) (cfg0 : IniFile)
    (res : MergeResult) (hp : partitionProfiles opts.Profiles = none)
    (h : MergeFrom rm opts cfg0 = some res) : res = ⟨cfg0, [], [], [], []⟩ := by
  rw [MergeFrom_none_partition rm opts cfg0 hp] at h
  injection h with h2
  exact h2.symm

/-- Inversion for a successful run in the supported-profiles case. -/
theorem MergeFrom_inv_some (rm : String → String → Bool) (opts : MergeOpts) (cfg0 : IniFile)
    (res : MergeResult) (parts : List SSOSession × List AccountProfile)
    (hp : partitionProfiles opts.Profiles = some parts)
    (h : MergeFrom rm opts cfg0 = some res) :
    ∃ st, mergeLoopOut rm opts cfg0 parts = some st ∧
      res = ⟨st.cfg, st.seen, st.roles,
        (mergeSessionsOut opts cfg0 parts).snd ++ (mergeImplicitOut opts cfg0 parts).2.1 ++
          st.writes,
        mkWarnings st.seen st.roles⟩ := by
  cases hl : mergeLoopOut rm opts cfg0 parts with
  | none =>
    have h2 := mergeLoopOut_isSome rm opts cfg0 parts
    rw [hl] at h2
    exact absurd h2 (by simp)
  | some st =>
    rw [MergeFrom_some_partition rm opts cfg0 parts st hp hl] at h
    injection h with h2
    exact ⟨st, rfl, h2.symm⟩

/-- Writes accounting for a whole run: after a successful merge in the
supported-profiles case, the final config is the pruned input config with
the run's writes applied in order. -/
theorem MergeFrom_result_config (rm : String → String → Bool) (opts : MergeOpts)
    (cfg0 : IniFile) (res : MergeResult)
    (parts : List SSOSession × List AccountProfile) (st : LoopState)
    (hl : mergeLoopOut rm opts cfg0 parts = some st)
    (hres : res = ⟨st.cfg, st.seen, st.roles,
      (mergeSessionsOut opts cfg0 parts).snd ++ (mergeImplicitOut opts cfg0 parts).2.1 ++
        st.writes,
      mkWarnings st.seen st.roles⟩) :
    res.Config = applyWrites (mergeCfg1 opts cfg0) res.writes := by
  obtain ⟨ws, hw, hcfg⟩ := profileLoop_writes rm opts (mergeSsoName opts) _ _ _ hl
  have hws : st.writes = ws := by
    simpa using hw
  subst hres
  show st.cfg = applyWrites (mergeCfg1 opts cfg0)
    ((mergeSessionsOut opts cfg0 parts).snd ++ (mergeImplicitOut opts cfg0 parts).2.1 ++
      st.writes)
  rw [applyWrites_append, applyWrites_append]
  simp only [mergeImplicitOut, mergeSessionsOut]
  rw [← writeSessions_fst, ← implicitPass_fst, hws]
  exact hcfg

/-! ## Idempotence -/

/-- Re-pruning a document produced by prune-then-write and re-applying the
same writes changes nothing: the pruning pass can only delete sections it
already deleted (all survivors fail `shouldPruneB`) or sections the write
sequence rewrites anyway. -/
theorem prune_applyWrites_prune (purls : List String) (cfg : IniFile) (W : List IniSection) :
    applyWrites (pruneConfig purls (applyWrites (pruneConfig purls cfg) W)) W =
      applyWrites (pruneConfig purls cfg) W := by
  have hD := applyWrites_eq_filter_append W (pruneConfig purls cfg)
  rw [applyWrites_eq_filter_append W
      (pruneConfig purls (applyWrites (pruneConfig purls cfg) W)), hD]
  congr 1
  rw [pruneConfig, pruneLoop_eq, List.filter_filter, List.filter_append]
  have h2 : (applyWrites [] W).filter (fun s =>
      (!((W.map IniSection.name).contains s.name)) &&
        !((((pruneConfig purls cfg).filter
              (fun s3 => !((W.map IniSection.name).contains s3.name))) ++
            applyWrites [] W).any
            (fun sec => shouldPruneB purls sec && (s.name == sec.name)))) = [] := by
    apply List.filter_eq_nil_iff.mpr
    intro s hs
    have hname := mem_applyWrites_nil_name hs
    have hc : (W.map IniSection.name).contains s.name = true := contains_iff_mem.mpr hname
    rw [hc]
    simp
  have h3 : ((pruneConfig purls cfg).filter
        (fun s3 => !((W.map IniSection.name).contains s3.name))).filter (fun s =>
      (!((W.map IniSection.name).contains s.name)) &&
        !((((pruneConfig purls cfg).filter
              (fun s3 => !((W.map IniSection.name).contains s3.name))) ++
            applyWrites [] W).any
            (fun sec => shouldPruneB purls sec && (s.name == sec.name)))) =
      (pruneConfig purls cfg).filter
        (fun s3 => !((W.map IniSection.name).contains s3.name)) := by
    apply List.filter_eq_self.mpr
    intro s hs
    rcases List.mem_filter.mp hs with ⟨hsP, hsN⟩
    have hany : (((pruneConfig purls cfg).filter
          (fun s3 => !((W.map IniSection.name).contains s3.name))) ++
        applyWrites [] W).any
        (fun sec => shouldPruneB purls sec && (s.name == sec.name)) = false := by
      apply List.any_eq_false.mpr
      intro sec hsec
      simp only [Bool.and_eq_true, beq_iff_eq, not_and]
      intro hspB hname
      rcases List.mem_append.mp hsec with hsec1 | hsec1
      · rcases List.mem_filter.mp hsec1 with ⟨hsecP, _⟩
        have h4 := (mem_pruneConfig hsecP).2
        rw [h4] at hspB
        exact Bool.false_ne_true hspB
      · have hn := mem_applyWrites_nil_name hsec1
        rw [hname] at hsN
        have h5 : (W.map IniSection.name).contains sec.name = true := contains_iff_mem.mpr hn
        rw [h5] at hsN
        simp at hsN
    rw [hsN, hany]
    rfl
  rw [h2, h3, List.append_nil]

theorem LoopState.ext2 (a b : LoopState) (h1 : a.cfg = b.cfg) (h2 : a.seen = b.seen)
    (h3 : a.roles = b.roles) (h4 : a.writes = b.writes) : a = b := by
  cases a
  cases b
  simp_all

/-- Idempotence: a second merge run with the same options on the document
produced by a successful first run reproduces the first result exactly
(same document, same seen/role bookkeeping, same writes, same warnings). -/
theorem MergeFrom_idem (rm : String → String → Bool) (opts : MergeOpts) (cfg0 : IniFile)
    (res : MergeResult) (h : MergeFrom rm opts cfg0 = some res) :
    MergeFrom rm opts res.Config = some res := by
  cases hp : partitionProfiles opts.Profiles with
  | none =>
    have hres := MergeFrom_inv_none rm opts cfg0 res hp h
    rw [MergeFrom_none_partition rm opts res.Config hp, hres]
  | some parts =>
    obtain ⟨st, hl, hres⟩ := MergeFrom_inv_some rm opts cfg0 res parts hp h
    have hResConfig : res.Config = st.cfg := by rw [hres]
    -- the two implicit passes agree on writes and on the updated profile list
    have hconst := implicitPass_const opts
      (mergeSessionsOut opts cfg0 parts).fst (mergeSessionsOut opts res.Config parts).fst
      (sortProfiles parts.snd)
    have hwsS : (mergeSessionsOut opts res.Config parts).snd =
        (mergeSessionsOut opts cfg0 parts).snd :=
      writeSessions_snd parts.fst _ _
    have hwsI : (mergeImplicitOut opts res.Config parts).2.1 =
        (mergeImplicitOut opts cfg0 parts).2.1 := by
      simp only [mergeImplicitOut]
      exact hconst.1.symm
    have hprofs : (mergeImplicitOut opts res.Config parts).2.2 =
        (mergeImplicitOut opts cfg0 parts).2.2 := by
      simp only [mergeImplicitOut]
      exact hconst.2.symm
    -- run the bisimulation between the two write loops
    obtain ⟨st', ws, hrun', hseen', hroles', hw1, hw2, hc1, hc2⟩ :=
      profileLoop_bisim rm opts (mergeSsoName opts) (mergeImplicitOut opts cfg0 parts).2.2
        ⟨(mergeImplicitOut opts cfg0 parts).1, [], [], []⟩
        ⟨(mergeImplicitOut opts res.Config parts).1, [], [], []⟩
        st rfl rfl (fun n hn => absurd hn (List.not_mem_nil n)) hl
    have hl' : mergeLoopOut rm opts res.Config parts = some st' := by
      show profileLoop rm opts (mergeSsoName opts) (mergeImplicitOut opts res.Config parts).2.2
        ⟨(mergeImplicitOut opts res.Config parts).1, [], [], []⟩ = some st'
      rw [hprofs]
      exact hrun'
    have hstw : st.writes = ws := by simpa using hw1
    have hstw' : st'.writes = ws := by simpa using hw2
    -- the write sequence of the whole run
    have hW : res.writes = (mergeSessionsOut opts cfg0 parts).snd ++
        (mergeImplicitOut opts cfg0 parts).2.1 ++ st.writes := by rw [hres]
    have hrc : res.Config = applyWrites (mergeCfg1 opts cfg0) res.writes :=
      MergeFrom_result_config rm opts cfg0 res parts st hl hres
    -- the second run's loop output config equals the first run's
    have hbase : (mergeImplicitOut opts res.Config parts).1 =
        applyWrites (mergeCfg1 opts res.Config)
          ((mergeSessionsOut opts cfg0 parts).snd ++
            (mergeImplicitOut opts cfg0 parts).2.1) := by
      have e1 : (mergeImplicitOut opts res.Config parts).1 =
          applyWrites (mergeSessionsOut opts res.Config parts).fst
            (mergeImplicitOut opts res.Config parts).2.1 := by
        simp only [mergeImplicitOut]
        exact implicitPass_fst opts _ _
      have e2 : (mergeSessionsOut opts res.Config parts).fst =
          applyWrites (mergeCfg1 opts res.Config)
            (mergeSessionsOut opts res.Config parts).snd := by
        simp only [mergeSessionsOut]
        exact writeSessions_fst parts.fst _
      rw [e1, e2, hwsS, hwsI, ← applyWrites_append]
    have hbase0 : (mergeImplicitOut opts cfg0 parts).1 =
        applyWrites (mergeCfg1 opts cfg0)
          ((mergeSessionsOut opts cfg0 parts).snd ++
            (mergeImplicitOut opts cfg0 parts).2.1) := by
      have e1 : (mergeImplicitOut opts cfg0 parts).1 =
          applyWrites (mergeSessionsOut opts cfg0 parts).fst
            (mergeImplicitOut opts cfg0 parts).2.1 := by
        simp only [mergeImplicitOut]
        exact implicitPass_fst opts _ _
      have e2 : (mergeSessionsOut opts cfg0 parts).fst =
          applyWrites (mergeCfg1 opts cfg0) (mergeSessionsOut opts cfg0 parts).snd := by
        simp only [mergeSessionsOut]
        exact writeSessions_fst parts.fst _
      rw [e1, e2, ← applyWrites_append]
    have hcfg' : st'.cfg = st.cfg := by
      rw [hc2, hc1]
      show applyWrites (mergeImplicitOut opts res.Config parts).1 ws =
        applyWrites (mergeImplicitOut opts cfg0 parts).1 ws
      rw [hbase, hbase0, ← applyWrites_append, ← applyWrites_append]
      have hWw : (mergeSessionsOut opts cfg0 parts).snd ++
          (mergeImplicitOut opts cfg0 parts).2.1 ++ ws = res.writes := by
        rw [hW, hstw]
      rw [hWw]
      have hpr : mergeCfg1 opts res.Config =
          pruneConfig opts.PruneStartURLs
            (applyWrites (pruneConfig opts.PruneStartURLs cfg0) res.writes) := by
        rw [mergeCfg1, hrc]
        rfl
      rw [hpr]
      exact prune_applyWrites_prune opts.PruneStartURLs cfg0 res.writes
    have hstEq : st' = st := LoopState.ext2 st' st hcfg' hseen' hroles' (by rw [hstw, hstw'])
    rw [MergeFrom_some_partition rm opts res.Config parts st' hp hl', hstEq, hwsS, hwsI, ← hres]

/-! ## The stable sort -/

theorem sortProfiles_sorted (l : List AccountProfile) : List.Sorted profLE (sortProfiles l) :=
  List.sorted_insertionSort profLE l

theorem sortProfiles_perm (l : List AccountProfile) : (sortProfiles l).Perm l :=
  List.perm_insertionSort profLE l

theorem filter_key_orderedInsert_eq (k : String) (a : AccountProfile)
    (ha : combinedName a = k) :
    ∀ l : List AccountProfile,
      (l.orderedInsert profLE a).filter (fun x => combinedName x == k) =
        a :: l.filter (fun x => combinedName x == k) := by
  intro l
  induction l with
  | nil => simp [List.orderedInsert, ha]
  | cons b t ih =>
    by_cases hr : profLE a b
    · rw [List.orderedInsert_of_le profLE t hr, List.filter_cons]
      simp [ha]
    · simp only [List.orderedInsert, if_neg hr]
      have hlt : combinedName b < combinedName a :=
        not_le.mp (fun hle => hr ((profLE_iff a b).mpr hle))
      have hbk : combinedName b ≠ k := by
        intro hbk
        rw [← ha] at hbk
        exact absurd hbk (ne_of_lt hlt)
      rw [List.filter_cons, List.filter_cons]
      simp [hbk, ih]

theorem filter_key_orderedInsert_ne (k : String) (a : AccountProfile)
    (ha : ¬ combinedName a = k) :
    ∀ l : List AccountProfile,
      (l.orderedInsert profLE a).filter (fun x => combinedName x == k) =
        l.filter (fun x => combinedName x == k) := by
  intro l
  induction l with
  | nil => simp [List.orderedInsert, ha]
  | cons b t ih =>
    by_cases hr : profLE a b
    · rw [List.orderedInsert_of_le profLE t hr, List.filter_cons]
      simp [ha]
    · simp only [List.orderedInsert, if_neg hr]
      rw [List.filter_cons, List.filter_cons]
      by_cases hb : combinedName b = k <;> simp [hb, ih]

/-- Stability of the sort: profiles with any given combined key appear in the
output in their original input order. -/
theorem sortProfiles_stable_filter (l : List AccountProfile) (k : String) :
    (sortProfiles l).filter (fun x => combinedName x == k) =
      l.filter (fun x => combinedName x == k) := by
  induction l with
  | nil => rfl
  | cons a t ih =>
    show ((sortProfiles t).orderedInsert profLE a).filter
        (fun x => combinedName x == k) = _
    by_cases ha : combinedName a = k
    · rw [filter_key_orderedInsert_eq k a ha, ih, List.filter_cons]
      simp [ha]
    · rw [filter_key_orderedInsert_ne k a ha, ih, List.filter_cons]
      simp [ha]

/-! ## The duplicate report -/

theorem sortStrings_sorted (l : List String) : List.Sorted (· ≤ ·) (sortStrings l) :=
  (List.sorted_insertionSort strLERel l).imp (fun h => (strLE_iff_le _ _).mp h)

theorem sortStrings_count (l : List String) (n : String) :
    (sortStrings l).count n = l.count n :=
  (List.perm_insertionSort _ l).count_eq n

theorem mem_sortStrings (l : List String) (n : String) : n ∈ sortStrings l ↔ n ∈ l :=
  List.mem_insertionSort _

theorem mem_adjacentDups_of_sorted :
    ∀ l : List String, List.Sorted (· ≤ ·) l → ∀ n, n ∈ adjacentDups l ↔ 2 ≤ l.count n := by
  intro l
  induction l with
  | nil =>
    intro _ n
    simp [adjacentDups]
  | cons a t ih =>
    intro hs n
    cases t with
    | nil =>
      simp only [adjacentDups, List.not_mem_nil, false_iff, not_le]
      calc List.count n [a] ≤ 1 := by
            rcases eq_or_ne n a with h | h <;> simp [List.count_cons, h]
        _ < 2 := by omega
    | cons b t2 =>
      have hs2 : List.Sorted (· ≤ ·) (b :: t2) := hs.of_cons
      have hab : a ≤ b := List.rel_of_sorted_cons hs _ (by simp)
      have hstep : adjacentDups (a :: b :: t2) =
          (if b = a then [b] else []) ++ adjacentDups (b :: t2) := rfl
      rw [hstep]
      constructor
      · intro hmem
        rcases List.mem_append.mp hmem with h1 | h1
        · by_cases hba : b = a
          · rw [if_pos hba] at h1
            simp only [List.mem_singleton] at h1
            subst h1
            rw [hba]
            simp [List.count_cons]
          · rw [if_neg hba] at h1
            simp at h1
        · have h2 := (ih hs2 n).mp h1
          rw [List.count_cons]
          exact le_trans h2 (Nat.le_add_right _ _)
      · intro hcount
        by_cases hna : n = a
        · by_cases hnb : n = b
          · apply List.mem_append.mpr
            left
            rw [if_pos (by rw [← hnb, hna])]
            simp [hnb]
          · exfalso
            have h3 : 1 ≤ (b :: t2).count n := by
              rw [List.count_cons] at hcount
              have h35 : (if (a == n) = true then 1 else 0) ≤ 1 := by
                split <;> omega
              omega
            have h4 : n ∈ b :: t2 := List.count_pos_iff.mp (by omega)
            have h5 : n ∈ t2 := by
              rcases List.mem_cons.mp h4 with h | h
              · exact absurd h hnb
              · exact h
            have h6 : b ≤ n := List.rel_of_sorted_cons hs2 _ h5
            have h7 : n ≤ b := by rw [hna]; exact hab
            exact hnb (le_antisymm h7 h6)
        · apply List.mem_append.mpr
          right
          apply (ih hs2 n).mpr
          rw [List.count_cons] at hcount
          have h36 : (if (a == n) = true then 1 else 0) = 0 := by
            have : ¬ ((a == n) = true) := by
              simp only [beq_iff_eq]
              intro h
              exact hna h.symm
            simp [this]
          omega

theorem mem_compactAdjAux_imp :
    ∀ (l : List String) (prev n : String), n ∈ compactAdjAux prev l → n ∈ l := by
  intro l
  induction l with
  | nil => intro prev n h; simp [compactAdjAux] at h
  | cons b t ih =>
    intro prev n h
    simp only [compactAdjAux] at h
    by_cases hbp : b = prev
    · rw [if_pos hbp] at h
      exact List.mem_cons_of_mem b (ih prev n h)
    · rw [if_neg hbp] at h
      rcases List.mem_cons.mp h with h1 | h1
      · exact h1 ▸ List.mem_cons_self _ _
      · exact List.mem_cons_of_mem b (ih b n h1)

theorem mem_compactAdjAux_of :
    ∀ (l : List String) (prev n : String), n ∈ l → n ≠ prev → n ∈ compactAdjAux prev l := by
  intro l
  induction l with
  | nil => intro prev n h _; simp at h
  | cons b t ih =>
    intro prev n h hne
    simp only [compactAdjAux]
    by_cases hbp : b = prev
    · rw [if_pos hbp]
      rcases List.mem_cons.mp h with h1 | h1
      · exact absurd (h1.trans hbp) hne
      · exact ih prev n h1 hne
    · rw [if_neg hbp]
      rcases List.mem_cons.mp h with h1 | h1
      · exact h1 ▸ List.mem_cons_self _ _
      · by_cases hnb : n = b
        · exact hnb ▸ List.mem_cons_self _ _
        · exact List.mem_cons_of_mem b (ih b n h1 hnb)

theorem mem_compactAdj (l : List String) (n : String) : n ∈ compactAdj l ↔ n ∈ l := by
  cases l with
  | nil => rfl
  | cons a t =>
    simp only [compactAdj]
    constructor
    · intro h
      rcases List.mem_cons.mp h with h1 | h1
      · exact h1 ▸ List.mem_cons_self _ _
      · exact List.mem_cons_of_mem a (mem_compactAdjAux_imp t a n h1)
    · intro h
      rcases List.mem_cons.mp h with h1 | h1
      · exact h1 ▸ List.mem_cons_self _ _
      · by_cases hna : n = a
        · exact hna ▸ List.mem_cons_self _ _
        · exact List.mem_cons_of_mem a (mem_compactAdjAux_of t a n h1 hna)

theorem compactAdjAux_props :
    ∀ (l : List String) (prev : String), List.Sorted (· ≤ ·) l → (∀ x ∈ l, prev ≤ x) →
      (compactAdjAux prev l).Nodup ∧ List.Sorted (· ≤ ·) (compactAdjAux prev l) ∧
        ∀ n ∈ compactAdjAux prev l, prev ≤ n ∧ n ≠ prev := by
  intro l
  induction l with
  | nil =>
    intro prev _ _
    exact ⟨List.nodup_nil, List.sorted_nil, by simp [compactAdjAux]⟩
  | cons b t ih =>
    intro prev hs hlb
    have hst : List.Sorted (· ≤ ·) t := hs.of_cons
    have hbt : ∀ x ∈ t, b ≤ x := List.rel_of_sorted_cons hs
    simp only [compactAdjAux]
    by_cases hbp : b = prev
    · rw [if_pos hbp]
      exact ih prev hst (fun x hx => hbp ▸ hbt x hx)
    · rw [if_neg hbp]
      obtain ⟨nd, srt, props⟩ := ih b hst hbt
      have hprevb : prev ≤ b := hlb b (List.mem_cons_self _ _)
      refine ⟨List.nodup_cons.mpr ⟨?_, nd⟩, List.sorted_cons.mpr ⟨fun n hn => (props n hn).1, srt⟩,
        ?_⟩
      · intro hmem
        exact (props b hmem).2 rfl
      · intro n hn
        rcases List.mem_cons.mp hn with h1 | h1
        · exact ⟨h1 ▸ hprevb, h1 ▸ hbp⟩
        · obtain ⟨hbn, hnb⟩ := props n h1
          have hlt : b < n := lt_of_le_of_ne hbn (Ne.symm hnb)
          exact ⟨le_trans hprevb hbn, ne_of_gt (lt_of_le_of_lt hprevb hlt)⟩

theorem compactAdj_props (l : List String) (hs : List.Sorted (· ≤ ·) l) :
    (compactAdj l).Nodup ∧ List.Sorted (· ≤ ·) (compactAdj l) := by
  cases l with
  | nil => exact ⟨List.nodup_nil, List.sorted_nil⟩
  | cons a t =>
    obtain ⟨nd, srt, props⟩ := compactAdjAux_props t a hs.of_cons (List.rel_of_sorted_cons hs)
    simp only [compactAdj]
    refine ⟨List.nodup_cons.mpr ⟨?_, nd⟩, List.sorted_cons.mpr ⟨fun n hn => (props n hn).1, srt⟩⟩
    intro hmem
    exact (props a hmem).2 rfl

/-- The duplicate-name computation finds exactly the names recorded at least
twice in the seen list. -/
theorem mem_computeDupes (seen : List String) (n : String) :
    n ∈ computeDupes seen ↔ 2 ≤ seen.count n := by
  rw [computeDupes, mem_compactAdj, mem_sortStrings,
    mem_adjacentDups_of_sorted _ (sortStrings_sorted seen) n, sortStrings_count]

theorem computeDupes_nodup (seen : List String) : (computeDupes seen).Nodup :=
  (compactAdj_props _ (sortStrings_sorted _)).1

theorem computeDupes_sorted (seen : List String) :
    List.Sorted (· ≤ ·) (computeDupes seen) :=
  (compactAdj_props _ (sortStrings_sorted _)).2

theorem mkWarnings_fst (seen : List String) (roles : List (String × List String)) :
    (mkWarnings seen roles).map Prod.fst = computeDupes seen := by
  rw [mkWarnings]
  induction computeDupes seen with
  | nil => rfl
  | cons d t ih => simp [ih]

/-! ## Further loop postconditions -/

theorem profileLoop_seen_sections (rm : String → String → Bool) (opts : MergeOpts)
    (ssoName : String) :
    ∀ (ps : List AccountProfile) (st res : LoopState),
      (∀ n ∈ st.seen, (getSection st.cfg ("profile " ++ n)).isSome = true) →
      profileLoop rm opts ssoName ps st = some res →
      ∀ n ∈ res.seen, (getSection res.cfg ("profile " ++ n)).isSome = true := by
  intro ps
  induction ps with
  | nil =>
    intro st res hinv hrun
    simp only [profileLoop, Option.some.injEq] at hrun
    subst hrun
    exact hinv
  | cons a rest ih =>
    intro st res hinv hrun
    by_cases hc : st.seen.contains (stepName opts ssoName a) = true ∧ opts.PreferRoles ≠ []
    · have hmem : stepName opts ssoName a ∈ st.seen := contains_iff_mem.mp hc.1
      have hsome := hinv _ hmem
      cases hget : getSection st.cfg ("profile " ++ stepName opts ssoName a) with
      | none => rw [hget] at hsome; exact absurd hsome (by simp)
      | some exSec =>
        cases hov : shouldOverwriteLoop rm opts.PreferRoles
            (stepProfile opts ssoName a).RoleName (existingRoleName exSec) with
        | true =>
          rw [profileLoop_cons_some (profileStep_overwrite hc hget hov)] at hrun
          exact ih ⟨applyWrite st.cfg (stepSection opts ssoName a), st.seen, st.roles,
              st.writes ++ [stepSection opts ssoName a]⟩ res
            (fun n hn => getSection_isSome_applyWrite _ _ _ (hinv n hn)) hrun
        | false =>
          rw [profileLoop_cons_some (profileStep_skip hc hget hov)] at hrun
          exact ih st res hinv hrun
    · rw [profileLoop_cons_some (profileStep_record hc)] at hrun
      refine ih _ res ?_ hrun
      intro n hn
      rcases List.mem_append.mp hn with hn1 | hn1
      · exact getSection_isSome_applyWrite _ _ _ (hinv n hn1)
      · simp only [List.mem_singleton] at hn1
        subst hn1
        show (getSection (applyWrite st.cfg (stepSection opts ssoName a))
            ("profile " ++ stepName opts ssoName a)).isSome = true
        have hsn : "profile " ++ stepName opts ssoName a = (stepSection opts ssoName a).name := rfl
        rw [hsn, getSection_applyWrite_self]
        rfl

/-- With preference patterns configured, a profile name is never recorded
twice: the seen list stays duplicate-free. -/
theorem profileLoop_seen_nodup (rm : String → String → Bool) (opts : MergeOpts)
    (ssoName : String) (hpr : opts.PreferRoles ≠ []) :
    ∀ (ps : List AccountProfile) (st res : LoopState),
      st.seen.Nodup →
      profileLoop rm opts ssoName ps st = some res → res.seen.Nodup := by
  intro ps
  induction ps with
  | nil =>
    intro st res hnd hrun
    simp only [profileLoop, Option.some.injEq] at hrun
    subst hrun
    exact hnd
  | cons a rest ih =>
    intro st res hnd hrun
    by_cases hc : st.seen.contains (stepName opts ssoName a) = true ∧ opts.PreferRoles ≠ []
    · cases hget : getSection st.cfg ("profile " ++ stepName opts ssoName a) with
      | none =>
        rw [profileLoop_cons_none (profileStep_err hc hget)] at hrun
        exact absurd hrun (by simp)
      | some exSec =>
        cases hov : shouldOverwriteLoop rm opts.PreferRoles
            (stepProfile opts ssoName a).RoleName (existingRoleName exSec) with
        | true =>
          rw [profileLoop_cons_some (profileStep_overwrite hc hget hov)] at hrun
          exact ih ⟨applyWrite st.cfg (stepSection opts ssoName a), st.seen, st.roles,
              st.writes ++ [stepSection opts ssoName a]⟩ res hnd hrun
        | false =>
          rw [profileLoop_cons_some (profileStep_skip hc hget hov)] at hrun
          exact ih st res hnd hrun
    · rw [profileLoop_cons_some (profileStep_record hc)] at hrun
      refine ih _ res ?_ hrun
      show (st.seen ++ [stepName opts ssoName a]).Nodup
      have hnotmem : stepName opts ssoName a ∉ st.seen := by
        intro hmem
        exact hc ⟨contains_iff_mem.mpr hmem, hpr⟩
      refine List.Nodup.append hnd (List.nodup_singleton _) ?_
      intro x hx hx2
      simp only [List.mem_singleton] at hx2
      subst hx2
      exact hnotmem hx

/-! ## The preference loop as a first-distinguishing-pattern search -/

/-- The Go decision loop equals the specification formulation: the first
pattern in list order that matches exactly one of the two roles decides
(overwrite iff it matches the new role); if none distinguishes, overwrite. -/
theorem shouldOverwriteLoop_eq_find (rm : String → String → Bool) :
    ∀ (pats : List String) (tR eR : String),
      shouldOverwriteLoop rm pats tR eR =
        (match pats.find? (fun p => rm p tR != rm p eR) with
         | none => true
         | some p => rm p tR) := by
  intro pats
  induction pats with
  | nil => intro tR eR; rfl
  | cons p rest ih =>
    intro tR eR
    rcases Bool.eq_false_or_eq_true (rm p tR) with h1 | h1 <;>
      rcases Bool.eq_false_or_eq_true (rm p eR) with h2 | h2
    · have hso : shouldOverwriteLoop rm (p :: rest) tR eR =
          shouldOverwriteLoop rm rest tR eR := by
        simp [shouldOverwriteLoop, h1, h2]
      rw [hso, List.find?_cons_of_neg _ (by simp [h1, h2]), ih]
    · have hso : shouldOverwriteLoop rm (p :: rest) tR eR = true := by
        simp [shouldOverwriteLoop, h1, h2]
      rw [hso, List.find?_cons_of_pos _ (by simp [h1, h2])]
      simp [h1]
    · have hso : shouldOverwriteLoop rm (p :: rest) tR eR = false := by
        simp [shouldOverwriteLoop, h1, h2]
      rw [hso, List.find?_cons_of_pos _ (by simp [h1, h2])]
      simp [h1]
    · have hso : shouldOverwriteLoop rm (p :: rest) tR eR =
          shouldOverwriteLoop rm rest tR eR := by
        simp [shouldOverwriteLoop, h1, h2]
      rw [hso, List.find?_cons_of_neg _ (by simp [h1, h2]), ih]

/-! ## Embedding validation against the repository's own tests -/

/-- Validation of the embedding: the repository test case `"ok"` of
`TestGenerator_Generate` — one account profile in credential-process mode, a
user section `[profile example]` — produces exactly the expected document. -/
theorem merge_matches_repo_test_ok :
    Merge eqMatcher
        { baseOpts with
          Config := [c2userSection]
          Profiles := [SSOProfile.account devProfile] } =
      some c3wRes := rfl

/-! ## Helper for the conflict-resolution claim -/

theorem stepProfile_RoleName (opts : MergeOpts) (ssoName : String) (a : AccountProfile) :
    (stepProfile opts ssoName a).RoleName = a.RoleName := by
  rw [stepProfile, regionDefaulted]
  split <;> rfl

theorem notMem_pruneConfig_iff (pruneURLs : List String) (cfg : IniFile) (sec : IniSection)
    (hnodup : (cfg.map IniSection.name).Nodup) (hmem : sec ∈ cfg) :
    sec ∉ pruneConfig pruneURLs cfg ↔
      hasKey sec "common_fate_generated_from" = true ∧ sectionStartURL sec ∈ pruneURLs := by
  rw [pruneConfig_eq_filter pruneURLs cfg hnodup]
  constructor
  · intro hnot
    by_contra hcon
    apply hnot
    apply List.mem_filter.mpr
    refine ⟨hmem, ?_⟩
    have hspb : shouldPruneB pruneURLs sec = false := by
      rcases Bool.eq_false_or_eq_true (hasKey sec "common_fate_generated_from") with hk | hk
      · rcases Bool.eq_false_or_eq_true (pruneURLs.contains (sectionStartURL sec)) with hc | hc
        · exact absurd ⟨hk, contains_iff_mem.mp hc⟩ hcon
        · show (hasKey sec "common_fate_generated_from" &&
              pruneURLs.contains (sectionStartURL sec)) = false
          rw [hk, hc, Bool.and_false]
      · show (hasKey sec "common_fate_generated_from" &&
            pruneURLs.contains (sectionStartURL sec)) = false
        rw [hk, Bool.false_and]
    show (!shouldPruneB pruneURLs sec) = true
    rw [hspb]
    rfl
  · rintro ⟨h1, h2⟩ hmemf
    rcases List.mem_filter.mp hmemf with ⟨_, hpred⟩
    have hspb : shouldPruneB pruneURLs sec = true := by
      show (hasKey sec "common_fate_generated_from" &&
          pruneURLs.contains (sectionStartURL sec)) = true
      rw [h1, contains_iff_mem.mpr h2, Bool.and_self]
    rw [hspb] at hpred
    simp at hpred

/-! ## The claims -/

/-- C1: when a profile's rendered target name was already claimed earlier in
the run, the write-loop iteration behaves as follows.  With no preference
patterns, the new profile overwrites the section and its role is appended to
that name's role list (and the name re-recorded).  With patterns, the first
pattern in list order that matches exactly one of the new role and the role
occupying the section decides: matching only the new role overwrites
(recording nothing), matching only the existing role skips the profile
entirely, and if no pattern distinguishes the two, the new profile
overwrites. -/
theorem c1_conflict_resolution (rm : String → String → Bool) (opts : MergeOpts)
    (ssoName : String) (a : AccountProfile) (st : LoopState)
    (hseen : st.seen.contains (stepName opts ssoName a) = true) :
    (opts.PreferRoles = [] →
      profileStep rm opts ssoName a st =
        some ⟨applyWrite st.cfg (stepSection opts ssoName a),
          st.seen ++ [stepName opts ssoName a],
          rolesAdd st.roles (stepName opts ssoName a) a.RoleName,
          st.writes ++ [stepSection opts ssoName a]⟩) ∧
    (∀ exSec : IniSection, opts.PreferRoles ≠ [] →
      getSection st.cfg ("profile " ++ stepName opts ssoName a) = some exSec →
      ((opts.PreferRoles.find? (fun p => rm p a.RoleName != rm p (existingRoleName exSec)) =
          none →
        profileStep rm opts ssoName a st =
          some ⟨applyWrite st.cfg (stepSection opts ssoName a), st.seen, st.roles,
            st.writes ++ [stepSection opts ssoName a]⟩) ∧
      (∀ p, opts.PreferRoles.find?
            (fun q => rm q a.RoleName != rm q (existingRoleName exSec)) = some p →
        (rm p a.RoleName = true →
          profileStep rm opts ssoName a st =
            some ⟨applyWrite st.cfg (stepSection opts ssoName a), st.seen, st.roles,
              st.writes ++ [stepSection opts ssoName a]⟩) ∧
        (rm p a.RoleName = false → profileStep rm opts ssoName a st = some st)))) := by
  constructor
  · intro hempty
    have hc : ¬(st.seen.contains (stepName opts ssoName a) = true ∧ opts.PreferRoles ≠ []) := by
      rintro ⟨_, hne⟩
      exact hne hempty
    rw [profileStep_record hc, stepProfile_RoleName]
  · intro exSec hne hget
    have hc : st.seen.contains (stepName opts ssoName a) = true ∧ opts.PreferRoles ≠ [] :=
      ⟨hseen, hne⟩
    constructor
    · intro hfind
      have hov : shouldOverwriteLoop rm opts.PreferRoles (stepProfile opts ssoName a).RoleName
          (existingRoleName exSec) = true := by
        rw [shouldOverwriteLoop_eq_find, stepProfile_RoleName, hfind]
      exact profileStep_overwrite hc hget hov
    · intro p hfind
      constructor
      · intro hmatch
        have hov : shouldOverwriteLoop rm opts.PreferRoles (stepProfile opts ssoName a).RoleName
            (existingRoleName exSec) = true := by
          rw [shouldOverwriteLoop_eq_find, stepProfile_RoleName, hfind]
          simp [hmatch]
        exact profileStep_overwrite hc hget hov
      · intro hmatch
        have hov : shouldOverwriteLoop rm opts.PreferRoles (stepProfile opts ssoName a).RoleName
            (existingRoleName exSec) = false := by
          rw [shouldOverwriteLoop_eq_find, stepProfile_RoleName, hfind]
          simp [hmatch]
        exact profileStep_skip hc hget hov

/-- Witness for C1: a collision with no preference patterns at a concrete
state overwrites the section and appends the role. -/
theorem c1_conflict_resolution_witness :
    c1state.seen.contains (stepName c1opts "" c1profile) = true ∧
    profileStep eqMatcher c1opts "" c1profile c1state =
      some ⟨applyWrite c1state.cfg (stepSection c1opts "" c1profile),
        c1state.seen ++ [stepName c1opts "" c1profile],
        rolesAdd c1state.roles (stepName c1opts "" c1profile) c1profile.RoleName,
        c1state.writes ++ [stepSection c1opts "" c1profile]⟩ :=
  ⟨rfl, (c1_conflict_resolution eqMatcher c1opts "" c1profile c1state rfl).1 rfl⟩

/-- C2 counterexample: a user-owned section (no generated marker) whose name
collides with a generated profile's rendered target name is rewritten by the
merge — its keys are replaced by the generated fields. -/
theorem c2_counterexample :
    c2userSection ∈ c2opts.Config ∧
    hasKey c2userSection "common_fate_generated_from" = false ∧
    (Merge eqMatcher c2opts).map (fun r => getSection r.Config "profile example") =
      some (some ⟨"profile example", credentialProcessProfileToIni c2profile "example"⟩) ∧
    credentialProcessProfileToIni c2profile "example" ≠ [("test", "1")] :=
  ⟨List.mem_singleton.mpr rfl, rfl, rfl, by decide⟩

/-- C2 amended: a section of the input document without the
`common_fate_generated_from` marker, whose name is not among the names
written during the run, is still present (unchanged) in the output document;
pruning never deletes unmarked sections.  Unique input section names is an
`ini.v1` invariant. -/
theorem c2_user_sections_preserved (rm : String → String → Bool) (opts : MergeOpts)
    (res : MergeResult) (sec : IniSection)
    (hnodup : (opts.Config.map IniSection.name).Nodup)
    (h : Merge rm opts = some res)
    (hmarker : hasKey sec "common_fate_generated_from" = false)
    (hmem : sec ∈ opts.Config)
    (hname : sec.name ∉ res.writes.map IniSection.name) :
    sec ∈ res.Config := by
  cases hp : partitionProfiles opts.Profiles with
  | none =>
    have hres := MergeFrom_inv_none rm opts opts.Config res hp h
    rw [hres]
    exact hmem
  | some parts =>
    obtain ⟨st, hl, hres⟩ := MergeFrom_inv_some rm opts opts.Config res parts hp h
    have hrc : res.Config = applyWrites (mergeCfg1 opts opts.Config) res.writes :=
      MergeFrom_result_config rm opts opts.Config res parts st hl hres
    rw [hrc, applyWrites_eq_filter_append]
    apply List.mem_append.mpr
    left
    apply List.mem_filter.mpr
    constructor
    · show sec ∈ mergeCfg1 opts opts.Config
      rw [mergeCfg1, pruneConfig_eq_filter _ _ hnodup]
      apply List.mem_filter.mpr
      refine ⟨hmem, ?_⟩
      show (!shouldPruneB opts.PruneStartURLs sec) = true
      simp [shouldPruneB, hmarker]
    · have hcc : (res.writes.map IniSection.name).contains sec.name = false := by
        rcases Bool.eq_false_or_eq_true ((res.writes.map IniSection.name).contains sec.name)
          with hcc | hcc
        · exact absurd (contains_iff_mem.mp hcc) hname
        · exact hcc
      show (!((res.writes.map IniSection.name).contains sec.name)) = true
      rw [hcc]
      rfl

/-- Witness for C2 amended: a concrete run preserves a user section whose
name no write touches. -/
theorem c2_user_sections_preserved_witness :
    Merge eqMatcher c2wOpts = some c2wRes ∧ c2wKeepSection ∈ c2wRes.Config :=
  ⟨rfl,
   c2_user_sections_preserved eqMatcher c2wOpts c2wRes c2wKeepSection (by decide) rfl rfl
     (List.mem_singleton.mpr rfl) (by decide)⟩

/-- C3: merging is idempotent — running the merge a second time with the
same options (same profiles, template, prefix, prune URLs, preference
patterns, session name, default region) on the document produced by a
successful first run reproduces the first result exactly, in particular an
identical output document. -/
theorem c3_merge_idempotent (rm : String → String → Bool) (opts : MergeOpts)
    (res : MergeResult) (h : Merge rm opts = some res) :
    MergeFrom rm opts res.Config = some res :=
  MergeFrom_idem rm opts opts.Config res h

/-- Witness for C3: a concrete run (with pruning and one profile) whose
second run reproduces the result. -/
theorem c3_merge_idempotent_witness :
    Merge eqMatcher c3wOpts = some c3wRes ∧
    MergeFrom eqMatcher c3wOpts c3wRes.Config = some c3wRes :=
  ⟨rfl, c3_merge_idempotent eqMatcher c3wOpts c3wRes rfl⟩

/-- C4 (code bug): an unsupported profile variant makes `Merge` return `nil`
immediately — the `default` branch of the type switch returns from the whole
function instead of skipping the entry (its own comment says "skip").
Nothing is pruned and no supported profile is written; the same run without
the unsupported entry prunes the stale section and writes the profile. -/
theorem c4_unsupported_aborts_run :
    Merge eqMatcher c4opts = some ⟨c4opts.Config, [], [], [], []⟩ ∧
    (Merge eqMatcher c4opts).map
        (fun r => (getSection r.Config "profile prod/DevRole", getSection r.Config "profile stale")) =
      some (none, some c3wPrunable) ∧
    (Merge eqMatcher c4optsSupported).map
        (fun r => ((getSection r.Config "profile prod/DevRole").isSome,
          getSection r.Config "profile stale")) =
      some (true, none) :=
  ⟨rfl, rfl, rfl⟩

/-- C5 counterexample: the specification's own scenario — two profiles
rendering to the same target, preference pattern list `["DevRoleOne"]`,
roles `DevRoleOne`/`DevRoleTwo` in sorted order.  The final section holds
`DevRoleOne`'s data, but NO warning is emitted at all (the skipped duplicate
is never recorded), contradicting the claimed "exactly one warning line
listing that name together with the full list of roles". -/
theorem c5_counterexample :
    stepName c5opts (mergeSsoName c5opts) c5p1 = stepName c5opts (mergeSsoName c5opts) c5p2 ∧
    (Merge eqMatcher c5opts).map (fun r => (r.warnings, getSection r.Config "profile prod/Dev")) =
      some ([], some c5sectionOne) :=
  ⟨rfl, rfl⟩

/-- C5 amended: a warning entry is emitted exactly for the target names
recorded more than once in the run's seen list; the warned names are sorted
and duplicate-free, and each carries the role list recorded for that name
(in recording order, not sorted or deduplicated).  Collisions resolved by
the preference policy are not re-recorded, so when preference patterns are
configured no warning is ever emitted. -/
theorem c5_duplicate_report (rm : String → String → Bool) (opts : MergeOpts)
    (res : MergeResult) (h : Merge rm opts = some res) :
    (∀ n, n ∈ res.warnings.map Prod.fst ↔ 2 ≤ res.seenProfileNames.count n) ∧
    (res.warnings.map Prod.fst).Nodup ∧
    List.Sorted (· ≤ ·) (res.warnings.map Prod.fst) ∧
    (∀ n rs, (n, rs) ∈ res.warnings → rs = rolesGet res.profileNameToRoles n) ∧
    (opts.PreferRoles ≠ [] → res.warnings = []) := by
  cases hp : partitionProfiles opts.Profiles with
  | none =>
    have hres := MergeFrom_inv_none rm opts opts.Config res hp h
    subst hres
    exact ⟨by simp, by simp, by simp, by simp, by simp⟩
  | some parts =>
    obtain ⟨st, hl, hres⟩ := MergeFrom_inv_some rm opts opts.Config res parts hp h
    subst hres
    refine ⟨?_, ?_, ?_, ?_, ?_⟩
    · intro n
      show n ∈ (mkWarnings st.seen st.roles).map Prod.fst ↔ 2 ≤ st.seen.count n
      rw [mkWarnings_fst]
      exact mem_computeDupes st.seen n
    · show ((mkWarnings st.seen st.roles).map Prod.fst).Nodup
      rw [mkWarnings_fst]
      exact computeDupes_nodup st.seen
    · show List.Sorted (· ≤ ·) ((mkWarnings st.seen st.roles).map Prod.fst)
      rw [mkWarnings_fst]
      exact computeDupes_sorted st.seen
    · intro n rs hmem
      show rs = rolesGet st.roles n
      rw [mkWarnings] at hmem
      rcases List.mem_map.mp hmem with ⟨d, _, hd⟩
      injection hd with hd1 hd2
      subst hd1
      exact hd2.symm
    · intro hpr
      show mkWarnings st.seen st.roles = []
      have hnd : st.seen.Nodup :=
        profileLoop_seen_nodup rm opts (mergeSsoName opts) hpr _ _ st List.nodup_nil hl
      have hc : computeDupes st.seen = [] := by
        apply List.eq_nil_iff_forall_not_mem.mpr
        intro n hn
        have h2 := (mem_computeDupes st.seen n).mp hn
        have h1 := List.nodup_iff_count_le_one.mp hnd n
        omega
      rw [mkWarnings, hc]
      rfl

/-- Witness for C5 amended: the same collision without preference patterns
is recorded twice and warned once, with both roles. -/
theorem c5_duplicate_report_witness :
    Merge eqMatcher c5wOpts = some c5wRes ∧
    2 ≤ c5wRes.seenProfileNames.count "prod/Dev" ∧
    "prod/Dev" ∈ c5wRes.warnings.map Prod.fst :=
  ⟨rfl, by decide,
   ((c5_duplicate_report eqMatcher c5wOpts c5wRes rfl).1 "prod/Dev").mpr (by decide)⟩

/-- C6 (code bug): in session-reference mode the write loop unconditionally
overwrites every account profile's `SSOSessionName` with the caller's
`SessionName` (line 467), so a profile that arrived with its own session
name does not keep it: here the profile references session `company` but the
written `sso_session` key is the empty caller `SessionName`, contradicting
the claim and the repository's own test expectations. -/
theorem c6_session_name_clobbered :
    c6profile.SSOSessionName = "company" ∧ c6opts.SessionName = "" ∧
    (Merge eqMatcher c6opts).map (fun r =>
        (getSection r.Config "profile prod/DevRole").map (fun sec => keyValue sec "sso_session")) =
      some (some "") :=
  ⟨rfl, rfl, rfl⟩

/-- C7 counterexample: with a template rendering a name with trailing
whitespace, `Merge` succeeds and writes the section under that name instead
of failing with an invalid-section-name error before writing anything. -/
theorem c7_counterexample :
    (Merge eqMatcher c7opts).isSome = true ∧
    (Merge eqMatcher c7opts).map (fun r => getSection r.Config "profile prod. ") =
      some (some c7section) :=
  ⟨rfl, rfl⟩

/-- C7 amended: `Merge` performs no validation of rendered section names and
never fails because of one — every run succeeds, and every recorded profile
name (whatever characters it contains) has its section present in the output
document. -/
theorem c7_no_name_validation (rm : String → String → Bool) (opts : MergeOpts) :
    (Merge rm opts).isSome = true ∧
    (∀ res, Merge rm opts = some res →
      ∀ n ∈ res.seenProfileNames, (getSection res.Config ("profile " ++ n)).isSome = true) := by
  refine ⟨MergeFrom_isSome rm opts opts.Config, ?_⟩
  intro res h n hn
  cases hp : partitionProfiles opts.Profiles with
  | none =>
    have hres := MergeFrom_inv_none rm opts opts.Config res hp h
    subst hres
    simp at hn
  | some parts =>
    obtain ⟨st, hl, hres⟩ := MergeFrom_inv_some rm opts opts.Config res parts hp h
    subst hres
    have hpost := profileLoop_seen_sections rm opts (mergeSsoName opts) _ _ st
      (fun n2 hn2 => absurd hn2 (List.not_mem_nil n2)) hl
    exact hpost n hn

/-- Witness for C7 amended: the trailing-whitespace run succeeds and its
written section is present. -/
theorem c7_no_name_validation_witness :
    (Merge eqMatcher c7opts).isSome = true ∧
    (getSection c7wRes.Config "profile prod. ").isSome = true :=
  ⟨(c7_no_name_validation eqMatcher c7opts).1,
   (c7_no_name_validation eqMatcher c7opts).2 c7wRes rfl "prod. " (by decide)⟩

/-- C8: on a document with unique section names, the pruning pass deletes a
section if and only if it both carries the `common_fate_generated_from`
marker and its associated start URL is an entry of the prune set; a matching
URL without the marker, or the marker without a matching URL, is never
deleted. -/
theorem c8_prune_iff (pruneURLs : List String) (cfg : IniFile) (sec : IniSection)
    (hnodup : (cfg.map IniSection.name).Nodup) (hmem : sec ∈ cfg) :
    sec ∉ pruneConfig pruneURLs cfg ↔
      hasKey sec "common_fate_generated_from" = true ∧ sectionStartURL sec ∈ pruneURLs :=
  notMem_pruneConfig_iff pruneURLs cfg sec hnodup hmem

/-- Witness for C8: marker+match is deleted; match without marker and marker
without match are kept. -/
theorem c8_prune_iff_witness :
    c8secA ∉ pruneConfig ["https://u"] c8cfg ∧
    c8secB ∈ pruneConfig ["https://u"] c8cfg ∧
    c8secC ∈ pruneConfig ["https://u"] c8cfg :=
  ⟨(c8_prune_iff ["https://u"] c8cfg c8secA (by decide) (by decide)).mpr ⟨rfl, by decide⟩,
   not_not.mp (mt (c8_prune_iff ["https://u"] c8cfg c8secB (by decide) (by decide)).mp
     (by decide)),
   not_not.mp (mt (c8_prune_iff ["https://u"] c8cfg c8secC (by decide) (by decide)).mp
     (by decide))⟩

/-- C9 counterexample: the write loop sorts on the raw (unnormalized)
`AccountName`.  With account names `"a b"` and `"a-a"` the code's order puts
`"a b"` first (space sorts before hyphen), while the claim's
normalized-key order would put `"a-a"` first — the output is not sorted by
the normalized combined key. -/
theorem c9_counterexample :
    sortProfiles [c9p1, c9p2] = [c9p1, c9p2] ∧
    ¬ (normalizedCombinedName c9p1 ≤ normalizedCombinedName c9p2) ∧
    ¬ List.Pairwise (fun x y => normalizedCombinedName x ≤ normalizedCombinedName y)
        (sortProfiles [c9p1, c9p2]) := by
  have hs : sortProfiles [c9p1, c9p2] = [c9p1, c9p2] := by decide
  have hn : ¬ (normalizedCombinedName c9p1 ≤ normalizedCombinedName c9p2) := by
    intro hle
    have hb : strLE (normalizedCombinedName c9p1) (normalizedCombinedName c9p2) = true :=
      (strLE_iff_le _ _).mpr hle
    exact absurd hb (by decide)
  refine ⟨hs, hn, ?_⟩
  rw [hs]
  intro hp
  exact hn ((List.pairwise_cons.mp hp).1 c9p2 (List.mem_cons_self _ _))

/-- C9 amended: account profiles are stably sorted by the combined key
`AccountName + "/" + RoleName` computed from the raw (unnormalized)
`AccountName`: the output is sorted by that key, is a permutation of the
input, and profiles with equal combined keys keep their original input
order.  Normalization of `AccountName` (spaces to hyphens) happens later,
in the write loop, before the naming template is rendered. -/
theorem c9_sort_raw_stable (l : List AccountProfile) :
    List.Sorted profLE (sortProfiles l) ∧
    (sortProfiles l).Perm l ∧
    (∀ k, (sortProfiles l).filter (fun x => combinedName x == k) =
      l.filter (fun x => combinedName x == k)) ∧
    (∀ ssoName a, (mutatedProfile ssoName a).AccountName = normalizeAccountName a.AccountName) :=
  ⟨sortProfiles_sorted l, sortProfiles_perm l, fun k => sortProfiles_stable_filter l k,
   fun _ _ => rfl⟩

/-- C10: the pruning pass matches on `granted_sso_start_url` whenever that
key is present (even if `sso_start_url` is also present), and consults
`sso_start_url` only when `granted_sso_start_url` is absent. -/
theorem c10_granted_priority (pruneURLs : List String) (cfg : IniFile) (sec : IniSection)
    (hnodup : (cfg.map IniSection.name).Nodup) (hmem : sec ∈ cfg) :
    (hasKey sec "granted_sso_start_url" = true →
      (sec ∉ pruneConfig pruneURLs cfg ↔
        hasKey sec "common_fate_generated_from" = true ∧
          keyValue sec "granted_sso_start_url" ∈ pruneURLs)) ∧
    (hasKey sec "granted_sso_start_url" = false → hasKey sec "sso_start_url" = true →
      (sec ∉ pruneConfig pruneURLs cfg ↔
        hasKey sec "common_fate_generated_from" = true ∧
          keyValue sec "sso_start_url" ∈ pruneURLs)) := by
  constructor
  · intro hg
    have hiff := notMem_pruneConfig_iff pruneURLs cfg sec hnodup hmem
    rw [sectionStartURL, if_pos hg] at hiff
    exact hiff
  · intro hg hs
    have hiff := notMem_pruneConfig_iff pruneURLs cfg sec hnodup hmem
    rw [sectionStartURL, if_neg (by simp [hg]), if_pos hs] at hiff
    exact hiff

/-- Witness for C10: a section with both URL keys is pruned when the
`granted_sso_start_url` value matches, and kept when only the
`sso_start_url` value matches. -/
theorem c10_granted_priority_witness :
    c10sec ∉ pruneConfig ["https://g"] [c10sec] ∧
    c10sec ∈ pruneConfig ["https://s"] [c10sec] :=
  ⟨((c10_granted_priority ["https://g"] [c10sec] c10sec (by decide)
      (List.mem_singleton.mpr rfl)).1 rfl).mpr ⟨rfl, by decide⟩,
   not_not.mp (mt ((c10_granted_priority ["https://s"] [c10sec] c10sec (by decide)
      (List.mem_singleton.mpr rfl)).1 rfl).mp (by decide))⟩

end Awscfg
